import Mathlib

/-!
Verification development for `nilearn/_utils/ndimage.py`.

The file embeds the two array algorithms of that module:

* `largest_connected_component` — connected-component labeling of an
  N-dimensional boolean grid followed by selection of the largest component;
* `_peak_local_max` — windowed local-maximum peak detection with
  thresholding and top-K truncation.

Grids are modelled as a shape (list of dimension extents) together with the
row-major flattened data list.  Machine floats are modelled by `ℚ` (the
algorithms only use ordering, multiplication and `max`).  The library
primitives the source calls (`scipy.ndimage.label` with its default
connectivity-1 structuring element, `scipy.ndimage.maximum_filter` with
`mode='constant', cval=0`, `numpy.bincount`, `numpy.argmax`,
`numpy.argsort`) are modelled from their documented semantics.
-/

/-! ### Row-major index arithmetic -/

/-- Multi-index of the cell with row-major flat index `i` in a grid of the
given shape (first axis is the slowest-varying). -/
def unflatten : List Nat → Nat → List Nat
  | [], _ => []
  | _ :: ds, i => i / ds.prod :: unflatten ds (i % ds.prod)

/-- Row-major flat index of a multi-index. -/
def flatten : List Nat → List Nat → Nat
  | [], _ => 0
  | _, [] => 0
  | _ :: ds, c :: cs => c * ds.prod + flatten ds cs

/-- The multi-index `c` lies inside a grid of shape `s`. -/
def inShapeB (s c : List Nat) : Bool :=
  c.length == s.length && (List.zip c s).all fun p => p.1 < p.2

/-- Distance between two natural numbers. -/
def natDist (a b : Nat) : Nat := max a b - min a b

/-- Per-axis coordinate distances between the cells with flat indices
`i` and `j`. -/
def coordDiffs (s : List Nat) (i j : Nat) : List Nat :=
  List.zipWith natDist (unflatten s i) (unflatten s j)

/-- Face adjacency (scipy's default connectivity-1 structuring element for
`ndimage.label`): the two cells differ by exactly 1 in exactly one axis. -/
def faceAdjB (s : List Nat) (i j : Nat) : Bool :=
  decide (i < s.prod) && decide (j < s.prod) && ((coordDiffs s i j).sum == 1)

/-- Full (Chebyshev / "26-connectivity") adjacency: distinct cells differing
by at most 1 in every axis.  This is the connectivity the specification
ascribes to the labeling step. -/
def diagAdjB (s : List Nat) (i j : Nat) : Bool :=
  decide (i < s.prod) && decide (j < s.prod) && (i != j) &&
    (coordDiffs s i j).all (· ≤ 1)

/-! ### Grids -/

/-- A dense N-dimensional array: shape plus row-major data. -/
structure Grid (α : Type) where
  shape : List Nat
  data : List α
deriving DecidableEq, Repr

/-- Well-formedness: the data list has exactly one entry per cell. -/
def Grid.WF {α : Type} (g : Grid α) : Prop := g.data.length = g.shape.prod

instance {α : Type} (g : Grid α) : Decidable g.WF := by
  unfold Grid.WF; infer_instance

/-- Value of a boolean grid at a flat index (false outside the data). -/
def bval (g : Grid Bool) (i : Nat) : Bool := g.data.getD i false

/-! ### Connected components

`scipy.ndimage.label(volume)` labels maximal connected regions of true
cells under the default face adjacency, label `0` marking background and
components receiving consecutive positive labels in order of their first
cell in raster-scan order.  We model it through bounded reachability:
`reachF` closes a singleton under "true neighbour" steps often enough to
reach the fixed point, a component's representative is its smallest flat
index, and components are numbered by the raster order of those
representatives. -/

/-- Neighbours of `i` (under adjacency `adj`) that hold a true cell. -/
def trueNbrs (adj : Nat → Nat → Bool) (g : Grid Bool) (i : Nat) : Finset Nat :=
  (Finset.range g.shape.prod).filter fun j => (adj i j && bval g j) = true

/-- One closure step: add every true neighbour of the current set. -/
def stepF (adj : Nat → Nat → Bool) (g : Grid Bool) (s : Finset Nat) : Finset Nat :=
  s ∪ s.biUnion fun i => trueNbrs adj g i

/-- All cells reachable from `i` through true cells (the closure step is
iterated one more time than the number of cells, which passes the fixed
point). -/
def reachF (adj : Nat → Nat → Bool) (g : Grid Bool) (i : Nat) : Finset Nat :=
  (stepF adj g)^[g.shape.prod + 1] {i}

/-- Smallest flat index in the connected component of `i`. -/
def compMin (adj : Nat → Nat → Bool) (g : Grid Bool) (i : Nat) : Nat :=
  (insert i (reachF adj g i)).min' (Finset.insert_nonempty i _)

/-- The adjacency actually used by `ndimage.label`'s default structuring
element on this grid. -/
def faceAdjOf (g : Grid Bool) : Nat → Nat → Bool := faceAdjB g.shape

/-- `i` is the representative (first raster cell) of its component. -/
def isRep (g : Grid Bool) (i : Nat) : Bool :=
  bval g i && (compMin (faceAdjOf g) g i == i)

/-- Representatives of all components, in raster order. -/
def repsList (g : Grid Bool) : List Nat :=
  (List.range g.shape.prod).filter fun i => isRep g i

/-- Number of connected components (`label_nb` in the source). -/
def label_nb (g : Grid Bool) : Nat := (repsList g).length

/-- Label of the cell with flat index `i`: 0 on background, otherwise the
1-based rank of the component's representative. -/
def labelAt (g : Grid Bool) (i : Nat) : Nat :=
  if bval g i then (repsList g).indexOf (compMin (faceAdjOf g) g i) + 1 else 0

/-- Flattened label map (`labels.ravel()` in the source). -/
def labelsData (g : Grid Bool) : List Nat :=
  (List.range g.shape.prod).map (labelAt g)

/-- `numpy.bincount`: entry `v` counts the occurrences of `v`; the result
has length `max l + 1`. -/
def bincount (l : List Nat) : List Nat :=
  (List.range (l.foldr max 0 + 1)).map fun v => l.count v

/-- `numpy.argmax` on a list of counts: index of the first occurrence of
the maximum (the accumulator is replaced only on a strict increase). -/
def argmaxFirst (l : List Nat) : Nat :=
  (List.range l.length).foldl (fun b j => if l.getD b 0 < l.getD j 0 then j else b) 0

/-- Boolean mask `labels == L`. -/
def labelMaskGrid (g : Grid Bool) (L : Nat) : Grid Bool :=
  ⟨g.shape, (labelsData g).map fun l => l == L⟩

/-- `largest_connected_component` from the source: label the volume, raise
on zero components, short-circuit on one component, otherwise zero the
background count and keep the cells of the label with the (first) largest
count.  On a boolean grid `volume.astype(np.bool)` is the grid itself. -/
def largest_connected_component (g : Grid Bool) : Except String (Grid Bool) :=
  if label_nb g = 0 then .error "No non-zero values: no connected components"
  else if label_nb g = 1 then .ok g
  else
    let label_count := (bincount (labelsData g)).set 0 0
    .ok (labelMaskGrid g (argmaxFirst label_count))

/-- The general path of `largest_connected_component` with the
one-component short-circuit removed: always materialize the size table,
zero the background count and select by `argmax`.  Used to state that the
short-circuit is behaviourally equivalent to the general path. -/
def largest_connected_component_general (g : Grid Bool) : Except String (Grid Bool) :=
  if label_nb g = 0 then .error "No non-zero values: no connected components"
  else
    let label_count := (bincount (labelsData g)).set 0 0
    .ok (labelMaskGrid g (argmaxFirst label_count))

/-! ### Peak detection (`_peak_local_max`)

`scipy.ndimage.maximum_filter(image, size=2*min_distance+1,
mode='constant')` computes, at each cell, the maximum over the symmetric
window of radius `min_distance` in every axis, out-of-bounds window
positions contributing the constant value 0.  The in-bounds window of a
cell is the set of cells at Chebyshev distance at most `min_distance`.
The machine floats of the source are modelled by an arbitrary linear
ordered commutative ring: the algorithm only uses ordering, `max`,
multiplication and the constants 0 and 1. -/

/-- Value of a numeric grid at a flat index (0 outside the data). -/
def qval {α : Type} [LinearOrderedCommRing α] (g : Grid α) (i : Nat) : α :=
  g.data.getD i 0

/-- `j` lies in the in-bounds window of radius `md` around `i`. -/
def chebInWinB (s : List Nat) (md i j : Nat) : Bool :=
  decide (i < s.prod) && decide (j < s.prod) && (coordDiffs s i j).all (· ≤ md)

/-- In-bounds window of radius `md` around `i`, in raster order. -/
def windowIdx (s : List Nat) (md i : Nat) : List Nat :=
  (List.range s.prod).filter fun j => chebInWinB s md i j

/-- The window of radius `md` around `i` reaches outside the grid (so the
constant padding value 0 participates in the maximum). -/
def windowEscapes (s : List Nat) (md i : Nat) : Bool :=
  (List.zip (unflatten s i) s).any fun p => p.1 < md || p.2 ≤ p.1 + md

/-- `maximum_filter` value at cell `i`: maximum of the in-bounds window
values, together with the padding value 0 when the window escapes the
grid.  The fold starts from the centre value, which itself belongs to the
window. -/
def maximum_filter_at {α : Type} [LinearOrderedCommRing α] (g : Grid α) (md i : Nat) : α :=
  let vals := (windowIdx g.shape md i).map (qval g)
  let vals := if windowEscapes g.shape md i then 0 :: vals else vals
  vals.foldl max (qval g i)

/-- Candidate mask `mask = (image == image_max)`. -/
def candAt {α : Type} [LinearOrderedCommRing α] (g : Grid α) (md i : Nat) : Bool :=
  decide (qval g i = maximum_filter_at g md i)

/-- Value of cell `i` after `image *= mask` (non-candidates flattened
to 0). -/
def maskedAt {α : Type} [LinearOrderedCommRing α] (g : Grid α) (md i : Nat) : α :=
  qval g i * (if candAt g md i then 1 else 0)

/-- The masked grid, flattened (`image.ravel()` after `image *= mask`). -/
def maskedData {α : Type} [LinearOrderedCommRing α] (g : Grid α) (md : Nat) : List α :=
  (List.range g.shape.prod).map (maskedAt g md)

/-- `numpy.max` on a flattened nonempty array. -/
def qListMax {α : Type} [LinearOrderedCommRing α] (l : List α) : α :=
  l.foldl max (l.headD 0)

/-- `peak_threshold = max(np.max(image.ravel()) * threshold_rel,
threshold_abs)` computed on the masked grid. -/
def peak_threshold {α : Type} [LinearOrderedCommRing α] (g : Grid α) (md : Nat)
    (tAbs tRel : α) : α :=
  max (qListMax (maskedData g md) * tRel) tAbs

/-- `np.argwhere(image > peak_threshold)`: flat indices of the surviving
candidates, in raster order. -/
def peakCoords {α : Type} [LinearOrderedCommRing α] (g : Grid α) (md : Nat)
    (tAbs tRel : α) : List Nat :=
  (List.range g.shape.prod).filter fun i =>
    decide (peak_threshold g md tAbs tRel < maskedAt g md i)

/-- Comparison of (coordinate, intensity) pairs by intensity. -/
def pairLe {α : Type} [LinearOrderedCommRing α] (p q : Nat × α) : Prop := p.2 ≤ q.2

instance {α : Type} [LinearOrderedCommRing α] : DecidableRel (@pairLe α _) :=
  fun p q => by unfold pairLe; infer_instance

instance {α : Type} [LinearOrderedCommRing α] : IsTotal (Nat × α) pairLe :=
  ⟨fun a b => le_total a.2 b.2⟩

instance {α : Type} [LinearOrderedCommRing α] : IsTrans (Nat × α) pairLe :=
  ⟨fun _ _ _ h1 h2 => le_trans h1 h2⟩

/-- `np.argsort(intensities)[::-1]` applied to coordinate/intensity pairs:
sort ascending by intensity, then reverse. -/
def sortPairsDesc {α : Type} [LinearOrderedCommRing α] (ps : List (Nat × α)) :
    List (Nat × α) :=
  (ps.insertionSort pairLe).reverse

/-- Surviving coordinates after the top-K truncation: when more than
`num_peaks` candidates survive the threshold, keep the `num_peaks` of
highest intensity (`num_peaks = none` models the default `np.inf`). -/
def keptCoords {α : Type} [LinearOrderedCommRing α] (g : Grid α) (md : Nat)
    (tAbs tRel : α) (numPeaks : Option Nat) : List Nat :=
  let coords := peakCoords g md tAbs tRel
  match numPeaks with
  | none => coords
  | some k =>
      if k < coords.length then
        ((sortPairsDesc (coords.map fun i => (i, maskedAt g md i))).take k).map Prod.fst
      else coords

/-- `np.all(image == image.flat[0])`. -/
def isFlat {α : Type} [LinearOrderedCommRing α] (g : Grid α) : Bool :=
  g.data.all fun x => decide (x = g.data.headD 0)

/-- `_peak_local_max` from the source: all-false output on a flat image,
otherwise the boolean mask of the surviving candidate coordinates. -/
def _peak_local_max {α : Type} [LinearOrderedCommRing α] (g : Grid α) (md : Nat)
    (tAbs tRel : α) (numPeaks : Option Nat) : Grid Bool :=
  if isFlat g then ⟨g.shape, List.replicate g.data.length false⟩
  else ⟨g.shape, (List.range g.data.length).map fun i =>
    (keptCoords g md tAbs tRel numPeaks).contains i⟩

/-- A boolean peak mask cast back to the numeric element type
(`True ↦ 1, False ↦ 0`). -/
def castMask {α : Type} [LinearOrderedCommRing α] (m : Grid Bool) : Grid α :=
  ⟨m.shape, m.data.map fun b => if b then 1 else 0⟩

/-! ### Buffer model for the mutation claim

To state that neither algorithm mutates the caller-owned array we re-run
both function bodies over an explicit heap of buffers.  The caller's array
is buffer 0; `np.asarray` aliases it, `copy()`/`astype`/freshly built
arrays allocate new buffers, and the source's in-place operations
(`image *= mask`, `label_count[0] = 0`, `out[nd_indices] = True`) write
through the reference their variable is currently bound to. -/

/-- A heap of array buffers; references are indices. -/
structure Heap (α : Type) where
  bufs : List (List α)

/-- Allocate a fresh buffer, returning the new heap and the reference. -/
def halloc {α : Type} (h : Heap α) (d : List α) : Heap α × Nat :=
  (⟨h.bufs ++ [d]⟩, h.bufs.length)

/-- Read the contents of a buffer. -/
def hread {α : Type} (h : Heap α) (r : Nat) : List α := h.bufs.getD r []

/-- Overwrite a buffer in place. -/
def hwrite {α : Type} (h : Heap α) (r : Nat) (d : List α) : Heap α :=
  ⟨h.bufs.set r d⟩

/-- Boolean cells as stored in a numeric buffer. -/
def boolToInt (b : Bool) : Int := if b then 1 else 0

/-- `_peak_local_max` with explicit buffers.  `image` is bound to the
caller's buffer 0; `out = np.zeros_like(image)` allocates;
`image = image.copy()` rebinds `image` to a fresh buffer, and the in-place
`image *= mask` and `out[nd_indices] = True` write through the bound
references.  Returns the final heap and the reference of `out`. -/
def peakRun {α : Type} [LinearOrderedCommRing α] (g : Grid α) (md : Nat)
    (tAbs tRel : α) (numPeaks : Option Nat) : Heap α × Nat :=
  let h0 : Heap α := ⟨[g.data]⟩
  let imageRef : Nat := 0
  let p1 := halloc h0 (List.replicate (hread h0 imageRef).length 0)
  let h1 := p1.1
  let outRef := p1.2
  if isFlat ⟨g.shape, hread h1 imageRef⟩ then (h1, outRef)
  else
    let p2 := halloc h1 (hread h1 imageRef)
    let h2 := p2.1
    let copyRef := p2.2
    let gcur : Grid α := ⟨g.shape, hread h2 copyRef⟩
    let h3 := hwrite h2 copyRef (maskedData gcur md)
    let kept := keptCoords gcur md tAbs tRel numPeaks
    let h4 := hwrite h3 outRef
      ((List.range (hread h3 outRef).length).map fun i => if kept.contains i then 1 else 0)
    (h4, outRef)

/-- `largest_connected_component` with explicit buffers (cells stored
numerically).  `volume = np.asarray(volume)` aliases the caller's buffer 0;
`ndimage.label`, `np.bincount`, `astype` and the `labels == argmax`
comparison allocate fresh buffers; `label_count[0] = 0` writes the count
buffer in place.  Returns the final heap and the result reference (or the
raised error). -/
def lccRun (g : Grid Bool) : Heap Int × Except String Nat :=
  let h0 : Heap Int := ⟨[g.data.map boolToInt]⟩
  let volumeRef : Nat := 0
  let p1 := halloc h0 ((labelsData g).map Int.ofNat)
  let h1 := p1.1
  if label_nb g = 0 then (h1, .error "No non-zero values: no connected components")
  else if label_nb g = 1 then
    let p2 := halloc h1 (hread h1 volumeRef)
    (p2.1, .ok p2.2)
  else
    let p2 := halloc h1 ((bincount (labelsData g)).map Int.ofNat)
    let h2 := p2.1
    let countRef := p2.2
    let h3 := hwrite h2 countRef ((hread h2 countRef).set 0 0)
    let counts := (bincount (labelsData g)).set 0 0
    let p3 := halloc h3 ((labelMaskGrid g (argmaxFirst counts)).data.map boolToInt)
    (p3.1, .ok p3.2)

/-- One step of connectivity: `b` is a true neighbour of `a`. -/
def rstep (adj : Nat → Nat → Bool) (g : Grid Bool) (a b : Nat) : Prop :=
  adj a b = true ∧ bval g b = true

/-- Reachability through true cells: the reflexive-transitive closure of
`rstep`.  For a true cell `w`, `{j | ReachRel adj g w j}` is exactly the
maximal connected region of true cells containing `w`. -/
def ReachRel (adj : Nat → Nat → Bool) (g : Grid Bool) (i j : Nat) : Prop :=
  Relation.ReflTransGen (rstep adj g) i j

/-- Reachability through true cells under the labeling's face adjacency. -/
def FReach (g : Grid Bool) (i j : Nat) : Prop := ReachRel (faceAdjOf g) g i j

/-- Reachability through true cells under the full (diagonal-inclusive)
adjacency named by the specification. -/
def DReach (g : Grid Bool) (i j : Nat) : Prop := ReachRel (diagAdjB g.shape) g i j

/-- `out` is true exactly on the maximal `adj`-connected region of true
cells of `g` containing some true cell `w`. -/
def IsSingleRegionMask (adj : Nat → Nat → Bool) (g out : Grid Bool) : Prop :=
  ∃ w, w < g.shape.prod ∧ bval g w = true ∧
    ∀ j, bval out j = true ↔ ReachRel adj g w j

/-- Claim C1 as stated by the specification: the labeling joins true cells
that differ by at most 1 in every axis (diagonal neighbours included), and
the returned mask is true exactly on one maximal region of that
connectivity. -/
def ClaimC1Statement : Prop :=
  ∀ g : Grid Bool, g.WF →
    (∀ i j, bval g i = true → bval g j = true → diagAdjB g.shape i j = true →
      labelAt g i = labelAt g j) ∧
    ∀ out, largest_connected_component g = .ok out →
      IsSingleRegionMask (diagAdjB g.shape) g out

/-- Claim C8 as stated: both operations are idempotent on their own output,
`_peak_local_max` for every parameter combination. -/
def ClaimC8Statement : Prop :=
  (∀ g out, largest_connected_component g = .ok out →
      largest_connected_component out = .ok out) ∧
  ∀ (α : Type) (inst : LinearOrderedCommRing α) (g : Grid α) (md : Nat)
    (tAbs tRel : α) (numPeaks : Option Nat),
    g.WF → 0 < g.shape.prod →
    _peak_local_max (castMask (_peak_local_max g md tAbs tRel numPeaks)) md tAbs tRel numPeaks =
      _peak_local_max g md tAbs tRel numPeaks

/-- Number of true cells of a boolean grid. -/
def trueCount (m : Grid Bool) : Nat := m.data.count true

/-- First cell, in raster-scan order, carrying label `L`. -/
def firstCellOf (g : Grid Bool) (L : Nat) : Nat :=
  (List.range g.shape.prod).findIdx fun i => labelAt g i == L

/-- The size table of `largest_connected_component`'s general path:
`np.bincount(labels.ravel())` with the background count forced to zero. -/
def sizeTable (g : Grid Bool) : List Nat := (bincount (labelsData g)).set 0 0

/-! ### Lemmas: folds computing maxima -/

theorem foldl_max_le_iff {α : Type} [LinearOrder α] (l : List α) (d x : α) :
    l.foldl max d ≤ x ↔ d ≤ x ∧ ∀ a ∈ l, a ≤ x := by
  induction l generalizing d with
  | nil => simp
  | cons b l ih =>
      simp only [List.foldl_cons, ih, max_le_iff, List.mem_cons]
      constructor
      · rintro ⟨⟨hd, hb⟩, h⟩
        exact ⟨hd, fun a ha => ha.elim (fun e => e ▸ hb) (h a)⟩
      · rintro ⟨hd, h⟩
        exact ⟨⟨hd, h b (Or.inl rfl)⟩, fun a ha => h a (Or.inr ha)⟩

theorem le_foldl_max {α : Type} [LinearOrder α] (l : List α) (d : α) :
    d ≤ l.foldl max d :=
  ((foldl_max_le_iff l d _).mp le_rfl).1

theorem le_foldl_max_of_mem {α : Type} [LinearOrder α] {l : List α} {a : α} (d : α)
    (h : a ∈ l) : a ≤ l.foldl max d :=
  ((foldl_max_le_iff l d _).mp le_rfl).2 a h

theorem foldl_max_mem {α : Type} [LinearOrder α] (l : List α) (d : α) :
    l.foldl max d = d ∨ l.foldl max d ∈ l := by
  induction l generalizing d with
  | nil => exact Or.inl rfl
  | cons b l ih =>
      rcases ih (max d b) with h | h
      · rcases max_cases d b with ⟨he, _⟩ | ⟨he, _⟩
        · exact Or.inl (by simpa [he] using h)
        · exact Or.inr (by rw [List.foldl_cons, h, he]; exact List.mem_cons_self b l)
      · exact Or.inr (List.mem_cons_of_mem _ h)

theorem foldl_max_eq_self_iff {α : Type} [LinearOrder α] (l : List α) (d : α) :
    l.foldl max d = d ↔ ∀ a ∈ l, a ≤ d := by
  constructor
  · intro h a ha
    exact h ▸ le_foldl_max_of_mem d ha
  · intro h
    exact le_antisymm ((foldl_max_le_iff l d d).mpr ⟨le_rfl, h⟩) (le_foldl_max l d)

theorem le_foldr_max_of_mem {l : List Nat} {a : Nat} (h : a ∈ l) :
    a ≤ l.foldr max 0 := by
  induction l with
  | nil => cases h
  | cons b l ih =>
      rcases List.mem_cons.mp h with rfl | h
      · exact le_max_left _ _
      · exact le_trans (ih h) (le_max_right _ _)

/-! ### Lemmas: row-major index arithmetic -/

theorem unflatten_length (s : List Nat) (i : Nat) :
    (unflatten s i).length = s.length := by
  induction s generalizing i with
  | nil => rfl
  | cons d ds ih => simp [unflatten, ih]

theorem prod_pos_of_forall₂ {c s : List Nat} (h : List.Forall₂ (· < ·) c s) :
    0 < s.prod := by
  induction h with
  | nil => simp
  | cons hx _ ih =>
      simp only [List.prod_cons]
      exact Nat.mul_pos (by omega) ih

theorem unflatten_forall₂ {s : List Nat} {i : Nat} (h : i < s.prod) :
    List.Forall₂ (· < ·) (unflatten s i) s := by
  induction s generalizing i with
  | nil => exact List.Forall₂.nil
  | cons d ds ih =>
      have hP : 0 < ds.prod := by
        rcases Nat.eq_zero_or_pos ds.prod with h0 | h0
        · simp [List.prod_cons, h0] at h
        · exact h0
      refine List.Forall₂.cons ?_ (ih (Nat.mod_lt _ hP))
      exact (Nat.div_lt_iff_lt_mul hP).mpr (by simpa [List.prod_cons, Nat.mul_comm] using h)

theorem flatten_unflatten {s : List Nat} {i : Nat} (h : i < s.prod) :
    flatten s (unflatten s i) = i := by
  induction s generalizing i with
  | nil => simp [List.prod_nil] at h; simp [h, unflatten, flatten]
  | cons d ds ih =>
      have hP : 0 < ds.prod := by
        rcases Nat.eq_zero_or_pos ds.prod with h0 | h0
        · simp [List.prod_cons, h0] at h
        · exact h0
      simp only [unflatten, flatten]
      rw [ih (Nat.mod_lt _ hP), Nat.mul_comm (i / ds.prod) ds.prod]
      exact Nat.div_add_mod i ds.prod

theorem flatten_lt {c s : List Nat} (h : List.Forall₂ (· < ·) c s) :
    flatten s c < s.prod := by
  induction h with
  | nil => simp [flatten]
  | @cons a b c' s' hab htail ih =>
      simp only [flatten, List.prod_cons]
      calc a * s'.prod + flatten s' c' < a * s'.prod + s'.prod :=
            Nat.add_lt_add_left ih _
        _ = (a + 1) * s'.prod := by ring
        _ ≤ b * s'.prod := Nat.mul_le_mul_right _ hab

theorem unflatten_flatten {c s : List Nat} (h : List.Forall₂ (· < ·) c s) :
    unflatten s (flatten s c) = c := by
  induction h with
  | nil => rfl
  | @cons a b c' s' hab htail ih =>
      have hr : flatten s' c' < s'.prod := flatten_lt htail
      have hP : 0 < s'.prod := Nat.pos_of_ne_zero (by intro h0; simp [h0] at hr)
      have h1 : (a * s'.prod + flatten s' c') / s'.prod = a := by
        rw [Nat.mul_comm a s'.prod, Nat.mul_add_div hP, Nat.div_eq_of_lt hr]
        omega
      have h2 : (a * s'.prod + flatten s' c') % s'.prod = flatten s' c' := by
        rw [Nat.mul_comm a s'.prod, Nat.mul_add_mod, Nat.mod_eq_of_lt hr]
      simp only [flatten, unflatten]
      rw [h1, h2, ih]

theorem unflatten_zero (s : List Nat) :
    unflatten s 0 = List.replicate s.length 0 := by
  induction s with
  | nil => rfl
  | cons d ds ih => simp [unflatten, ih, List.replicate_succ]

theorem flatten_replicate_zero (s : List Nat) :
    flatten s (List.replicate s.length 0) = 0 := by
  induction s with
  | nil => rfl
  | cons d ds ih => simp [flatten, List.replicate_succ, ih]

/-! ### Lemmas: reachability through true cells -/

theorem subset_stepF (adj : Nat → Nat → Bool) (g : Grid Bool) (s : Finset Nat) :
    s ⊆ stepF adj g s :=
  Finset.subset_union_left

theorem stepF_mono (adj : Nat → Nat → Bool) (g : Grid Bool) {s t : Finset Nat}
    (h : s ⊆ t) : stepF adj g s ⊆ stepF adj g t :=
  Finset.union_subset_union h (Finset.biUnion_subset_biUnion_of_subset_left _ h)

theorem iterate_stepF_subset_succ (adj : Nat → Nat → Bool) (g : Grid Bool)
    (k : Nat) (s : Finset Nat) :
    (stepF adj g)^[k] s ⊆ (stepF adj g)^[k + 1] s := by
  rw [Function.iterate_succ_apply']
  exact subset_stepF adj g _

theorem mem_reachF_self (adj : Nat → Nat → Bool) (g : Grid Bool) (i : Nat) :
    i ∈ reachF adj g i := by
  have h : ∀ k, i ∈ (stepF adj g)^[k] {i} := by
    intro k
    induction k with
    | zero => simp
    | succ k ih =>
        rw [Function.iterate_succ_apply']
        exact subset_stepF adj g _ ih
  exact h _

theorem iterate_stepF_subset_insert_range (adj : Nat → Nat → Bool) (g : Grid Bool)
    (i k : Nat) :
    (stepF adj g)^[k] {i} ⊆ insert i (Finset.range g.shape.prod) := by
  induction k with
  | zero => simp
  | succ k ih =>
      rw [Function.iterate_succ_apply']
      intro x hx
      rcases Finset.mem_union.mp hx with hx | hx
      · exact ih hx
      · rcases Finset.mem_biUnion.mp hx with ⟨m, _, hm⟩
        exact Finset.mem_insert_of_mem (Finset.mem_of_mem_filter x hm)

theorem stepF_reachF (adj : Nat → Nat → Bool) (g : Grid Bool) (i : Nat) :
    stepF adj g (reachF adj g i) = reachF adj g i := by
  classical
  set f := stepF adj g with hf
  set n := g.shape.prod with hn
  show f (f^[n + 1] {i}) = f^[n + 1] {i}
  by_cases hex : ∃ m, m ≤ n ∧ f^[m + 1] {i} = f^[m] {i}
  · obtain ⟨m, hm, he⟩ := hex
    have ha : f (f^[m] {i}) = f^[m] {i} := by
      have := Function.iterate_succ_apply' f m ({i} : Finset Nat)
      rw [← this]
      exact he
    have h1 : f^[n + 1] {i} = f^[m] {i} := by
      have hsplit : n + 1 = (n + 1 - m) + m := by omega
      rw [hsplit, Function.iterate_add_apply]
      exact Function.iterate_fixed ha (n + 1 - m)
    rw [h1]
    exact ha
  · exfalso
    push_neg at hex
    have hcard : ∀ k, k ≤ n + 1 → k + 1 ≤ (f^[k] {i}).card := by
      intro k
      induction k with
      | zero => intro _; simp
      | succ k ih =>
          intro hk
          have hsub : f^[k] {i} ⊆ f^[k + 1] {i} := iterate_stepF_subset_succ adj g k {i}
          have hne : f^[k] {i} ≠ f^[k + 1] {i} := fun h => hex k (by omega) h.symm
          have hss : f^[k] {i} ⊂ f^[k + 1] {i} := ssubset_of_subset_of_ne hsub hne
          have hlt := Finset.card_lt_card hss
          have := ih (by omega)
          omega
    have h1 := hcard (n + 1) le_rfl
    have h2 : (f^[n + 1] {i}).card ≤ n + 1 := by
      calc (f^[n + 1] {i}).card
          ≤ (insert i (Finset.range n)).card :=
            Finset.card_le_card (iterate_stepF_subset_insert_range adj g i (n + 1))
        _ ≤ (Finset.range n).card + 1 := Finset.card_insert_le _ _
        _ = n + 1 := by rw [Finset.card_range]
    omega

theorem reach_of_mem_iterate (adj : Nat → Nat → Bool) (g : Grid Bool)
    (i : Nat) (k : Nat) :
    ∀ j ∈ (stepF adj g)^[k] {i}, ReachRel adj g i j := by
  induction k with
  | zero =>
      intro j hj
      rw [Function.iterate_zero_apply, Finset.mem_singleton] at hj
      exact hj ▸ Relation.ReflTransGen.refl
  | succ k ih =>
      intro j hj
      rw [Function.iterate_succ_apply'] at hj
      rcases Finset.mem_union.mp hj with hj | hj
      · exact ih j hj
      · rcases Finset.mem_biUnion.mp hj with ⟨m, hm, hjm⟩
        have h2 := Finset.mem_filter.mp hjm
        have h3 := Bool.and_eq_true_iff.mp h2.2
        exact Relation.ReflTransGen.tail (ih m hm) ⟨h3.1, h3.2⟩

theorem reach_of_mem_reachF (adj : Nat → Nat → Bool) (g : Grid Bool)
    {i j : Nat} (h : j ∈ reachF adj g i) : ReachRel adj g i j :=
  reach_of_mem_iterate adj g i _ j h

theorem mem_reachF_of_reach (adj : Nat → Nat → Bool) (g : Grid Bool)
    (hadj : ∀ a b, adj a b = true → b < g.shape.prod)
    {i j : Nat} (h : ReachRel adj g i j) : j ∈ reachF adj g i := by
  induction h with
  | refl => exact mem_reachF_self adj g i
  | tail hab hbc ih =>
      rw [← stepF_reachF adj g i]
      apply Finset.mem_union_right
      apply Finset.mem_biUnion.mpr
      refine ⟨_, ih, ?_⟩
      apply Finset.mem_filter.mpr
      refine ⟨Finset.mem_range.mpr (hadj _ _ hbc.1), ?_⟩
      rw [Bool.and_eq_true_iff]
      exact ⟨hbc.1, hbc.2⟩

theorem reach_target_true (adj : Nat → Nat → Bool) (g : Grid Bool)
    {i j : Nat} (h : ReachRel adj g i j) : j = i ∨ bval g j = true := by
  induction h with
  | refl => exact Or.inl rfl
  | tail _ hbc _ => exact Or.inr hbc.2

theorem reach_symm (adj : Nat → Nat → Bool) (g : Grid Bool)
    (hsym : ∀ a b, adj a b = adj b a)
    {i j : Nat} (hi : bval g i = true) (h : ReachRel adj g i j) :
    ReachRel adj g j i := by
  induction h with
  | refl => exact Relation.ReflTransGen.refl
  | @tail b c hab hbc ih =>
      have hb : bval g b = true := by
        rcases reach_target_true adj g hab with rfl | hb
        · exact hi
        · exact hb
      exact Relation.ReflTransGen.head ⟨(hsym b c) ▸ hbc.1, hb⟩ ih

theorem reachF_congr (adj : Nat → Nat → Bool) (g : Grid Bool)
    (hadj : ∀ a b, adj a b = true → b < g.shape.prod)
    (hsym : ∀ a b, adj a b = adj b a)
    {i j : Nat} (hi : bval g i = true) (hj : bval g j = true)
    (h : ReachRel adj g i j) : reachF adj g i = reachF adj g j := by
  apply Finset.Subset.antisymm
  · intro x hx
    exact mem_reachF_of_reach adj g hadj
      ((reach_symm adj g hsym hi h).trans (reach_of_mem_reachF adj g hx))
  · intro x hx
    exact mem_reachF_of_reach adj g hadj
      (h.trans (reach_of_mem_reachF adj g hx))

theorem compMin_mem (adj : Nat → Nat → Bool) (g : Grid Bool) (i : Nat) :
    compMin adj g i ∈ insert i (reachF adj g i) :=
  Finset.min'_mem _ _

theorem compMin_le (adj : Nat → Nat → Bool) (g : Grid Bool) {i x : Nat}
    (h : x ∈ insert i (reachF adj g i)) : compMin adj g i ≤ x :=
  Finset.min'_le _ _ h

theorem compMin_le_self (adj : Nat → Nat → Bool) (g : Grid Bool) (i : Nat) :
    compMin adj g i ≤ i :=
  compMin_le adj g (Finset.mem_insert_self i _)

theorem insert_reachF_self (adj : Nat → Nat → Bool) (g : Grid Bool) (i : Nat) :
    insert i (reachF adj g i) = reachF adj g i :=
  Finset.insert_eq_self.mpr (mem_reachF_self adj g i)

theorem compMin_reach (adj : Nat → Nat → Bool) (g : Grid Bool) {i : Nat}
    (hi : bval g i = true) :
    ReachRel adj g i (compMin adj g i) ∧ bval g (compMin adj g i) = true := by
  have hm := compMin_mem adj g i
  rw [insert_reachF_self] at hm
  have hr := reach_of_mem_reachF adj g hm
  rcases reach_target_true adj g hr with he | ht
  · rw [he]
    exact ⟨Relation.ReflTransGen.refl, hi⟩
  · exact ⟨hr, ht⟩

theorem compMin_congr (adj : Nat → Nat → Bool) (g : Grid Bool)
    (hadj : ∀ a b, adj a b = true → b < g.shape.prod)
    (hsym : ∀ a b, adj a b = adj b a)
    {i j : Nat} (hi : bval g i = true) (hj : bval g j = true)
    (h : ReachRel adj g i j) : compMin adj g i = compMin adj g j := by
  have hset : insert i (reachF adj g i) = insert j (reachF adj g j) := by
    rw [insert_reachF_self, insert_reachF_self]
    exact reachF_congr adj g hadj hsym hi hj h
  apply Nat.le_antisymm
  · exact compMin_le adj g (hset ▸ compMin_mem adj g j)
  · exact compMin_le adj g (hset ▸ compMin_mem adj g i)

theorem compMin_idem (adj : Nat → Nat → Bool) (g : Grid Bool)
    (hadj : ∀ a b, adj a b = true → b < g.shape.prod)
    (hsym : ∀ a b, adj a b = adj b a)
    {i : Nat} (hi : bval g i = true) :
    compMin adj g (compMin adj g i) = compMin adj g i := by
  obtain ⟨hr, ht⟩ := compMin_reach adj g hi
  exact (compMin_congr adj g hadj hsym hi ht hr).symm

theorem reach_of_compMin_eq (adj : Nat → Nat → Bool) (g : Grid Bool)
    (hsym : ∀ a b, adj a b = adj b a)
    {i j : Nat} (hi : bval g i = true) (hj : bval g j = true)
    (h : compMin adj g i = compMin adj g j) : ReachRel adj g i j := by
  obtain ⟨hri, hti⟩ := compMin_reach adj g hi
  obtain ⟨hrj, _⟩ := compMin_reach adj g hj
  rw [h] at hri
  exact hri.trans (reach_symm adj g hsym hj hrj)

/-! ### Lemmas: adjacency and labels -/

theorem faceAdjB_lt {s : List Nat} {i j : Nat} (h : faceAdjB s i j = true) :
    j < s.prod := by
  unfold faceAdjB at h
  simp only [Bool.and_eq_true, decide_eq_true_eq] at h
  exact h.1.2

theorem natDist_comm (a b : Nat) : natDist a b = natDist b a := by
  unfold natDist
  rw [Nat.max_comm, Nat.min_comm]

theorem coordDiffs_comm (s : List Nat) (i j : Nat) :
    coordDiffs s i j = coordDiffs s j i := by
  unfold coordDiffs
  exact List.zipWith_comm_of_comm _ natDist_comm _ _

theorem faceAdjB_symm (s : List Nat) (i j : Nat) :
    faceAdjB s i j = faceAdjB s j i := by
  unfold faceAdjB
  rw [coordDiffs_comm]
  rw [Bool.and_comm (decide (i < s.prod)) (decide (j < s.prod))]

theorem diagAdjB_lt {s : List Nat} {i j : Nat} (h : diagAdjB s i j = true) :
    j < s.prod := by
  unfold diagAdjB at h
  simp only [Bool.and_eq_true, decide_eq_true_eq] at h
  exact h.1.1.2

theorem bval_lt {g : Grid Bool} (hwf : g.WF) {i : Nat} (h : bval g i = true) :
    i < g.shape.prod := by
  by_contra hge
  have : g.data.length ≤ i := by
    rw [hwf]
    omega
  rw [bval, List.getD_eq_default _ _ this] at h
  exact Bool.false_ne_true h

theorem face_hadj (g : Grid Bool) :
    ∀ a b, faceAdjOf g a b = true → b < g.shape.prod :=
  fun _ _ h => faceAdjB_lt h

theorem face_hsym (g : Grid Bool) :
    ∀ a b, faceAdjOf g a b = faceAdjOf g b a :=
  fun a b => faceAdjB_symm g.shape a b

theorem mem_reps_iff {g : Grid Bool} {i : Nat} :
    i ∈ repsList g ↔ i < g.shape.prod ∧ isRep g i = true := by
  unfold repsList
  rw [List.mem_filter, List.mem_range]

theorem reps_nodup (g : Grid Bool) : (repsList g).Nodup :=
  (List.nodup_range _).filter _

theorem reps_sorted (g : Grid Bool) : (repsList g).Sorted (· < ·) :=
  List.Pairwise.filter _ (List.sorted_lt_range _)

theorem compMin_mem_reps {g : Grid Bool} (hwf : g.WF) {i : Nat}
    (hi : bval g i = true) : compMin (faceAdjOf g) g i ∈ repsList g := by
  obtain ⟨hr, ht⟩ := compMin_reach (faceAdjOf g) g hi
  refine mem_reps_iff.mpr ⟨?_, ?_⟩
  · exact lt_of_le_of_lt (compMin_le_self _ g i) (bval_lt hwf hi)
  · unfold isRep
    rw [Bool.and_eq_true, beq_iff_eq]
    exact ⟨ht, compMin_idem (faceAdjOf g) g (face_hadj g) (face_hsym g) hi⟩

theorem rep_bval {g : Grid Bool} {r : Nat} (h : r ∈ repsList g) :
    bval g r = true := by
  have h2 := (mem_reps_iff.mp h).2
  unfold isRep at h2
  rw [Bool.and_eq_true] at h2
  exact h2.1

theorem rep_fixed {g : Grid Bool} {r : Nat} (h : r ∈ repsList g) :
    compMin (faceAdjOf g) g r = r := by
  have h2 := (mem_reps_iff.mp h).2
  unfold isRep at h2
  rw [Bool.and_eq_true, beq_iff_eq] at h2
  exact h2.2

theorem labelAt_eq_zero_iff {g : Grid Bool} {i : Nat} :
    labelAt g i = 0 ↔ bval g i = false := by
  unfold labelAt
  by_cases h : bval g i = true
  · simp [h]
  · rw [Bool.not_eq_true] at h
    simp [h]

theorem labelAt_le {g : Grid Bool} (hwf : g.WF) (i : Nat) :
    labelAt g i ≤ label_nb g := by
  unfold labelAt label_nb
  by_cases h : bval g i = true
  · rw [if_pos h]
    exact List.indexOf_lt_length.mpr (compMin_mem_reps hwf h)
  · rw [if_neg h]
    exact Nat.zero_le _

theorem labelAt_pos {g : Grid Bool} {i : Nat} (hi : bval g i = true) :
    1 ≤ labelAt g i := by
  unfold labelAt
  rw [if_pos hi]
  exact Nat.le_add_left 1 _

theorem labelAt_eq_iff {g : Grid Bool} (hwf : g.WF) {i j : Nat}
    (hi : bval g i = true) (hj : bval g j = true) :
    labelAt g i = labelAt g j ↔
      compMin (faceAdjOf g) g i = compMin (faceAdjOf g) g j := by
  unfold labelAt
  rw [if_pos hi, if_pos hj, Nat.add_right_cancel_iff]
  exact List.indexOf_inj (compMin_mem_reps hwf hi) (compMin_mem_reps hwf hj)

theorem labelAt_eq_iff_reach {g : Grid Bool} (hwf : g.WF) {i j : Nat}
    (hi : bval g i = true) (hj : bval g j = true) :
    labelAt g i = labelAt g j ↔ FReach g i j := by
  rw [labelAt_eq_iff hwf hi hj]
  constructor
  · exact reach_of_compMin_eq (faceAdjOf g) g (face_hsym g) hi hj
  · exact compMin_congr (faceAdjOf g) g (face_hadj g) (face_hsym g) hi hj

theorem label_nb_eq_zero_iff {g : Grid Bool} (hwf : g.WF) :
    label_nb g = 0 ↔ ∀ i, bval g i = false := by
  constructor
  · intro h i
    by_contra hne
    rw [Bool.not_eq_false] at hne
    have := compMin_mem_reps hwf hne
    unfold label_nb at h
    rw [List.length_eq_zero] at h
    rw [h] at this
    exact List.not_mem_nil _ this
  · intro h
    unfold label_nb repsList
    rw [List.length_eq_zero, List.filter_eq_nil]
    intro a _
    intro hrep
    have := rep_bval (mem_reps_iff.mpr ⟨by simpa using List.mem_range.mp (by assumption), hrep⟩)
    rw [h a] at this
    exact Bool.false_ne_true this

/-! ### Lemmas: list access helpers -/

theorem getD_map_range {β : Type} [Inhabited β] (m v : Nat) (f : Nat → β) (d : β)
    (h : v < m) : ((List.range m).map f).getD v d = f v := by
  rw [List.getD_eq_getElem _ _ (by simpa using h)]
  simp [List.getElem_map, List.getElem_range]

theorem getD_map_range_ge {β : Type} (m v : Nat) (f : Nat → β) (d : β)
    (h : m ≤ v) : ((List.range m).map f).getD v d = d :=
  List.getD_eq_default _ _ (by simpa using h)

theorem getD_set_ne {α : Type} (l : List α) (a d : α) {m v : Nat} (h : m ≠ v) :
    (l.set m a).getD v d = l.getD v d := by
  unfold List.getD
  rw [List.get?_set_ne a l h]

theorem getD_set_self {α : Type} (l : List α) (a d : α) {m : Nat}
    (h : m < l.length) : (l.set m a).getD m d = a := by
  unfold List.getD
  rw [List.get?_set_eq_of_lt a h]
  rfl

/-! ### Lemmas: labels of representatives, label counts -/

theorem labelAt_rep_get {g : Grid Bool} {k : Nat} (hk : k < (repsList g).length) :
    labelAt g ((repsList g).get ⟨k, hk⟩) = k + 1 := by
  set r := (repsList g).get ⟨k, hk⟩ with hr
  have hmem : r ∈ repsList g := List.get_mem _ _ _
  have hb : bval g r = true := rep_bval hmem
  unfold labelAt
  rw [if_pos hb, rep_fixed hmem]
  congr 1
  have hlt : (repsList g).indexOf r < (repsList g).length :=
    List.indexOf_lt_length.mpr hmem
  have h1 : (repsList g)[(repsList g).indexOf r] = r := List.getElem_indexOf hlt
  have h2 : (repsList g)[k] = r := rfl
  exact (@List.Nodup.getElem_inj_iff _ _ (reps_nodup g) _ hlt _ hk).mp (h1.trans h2.symm)

theorem exists_rep_of_label {g : Grid Bool} {L : Nat} (h1 : 1 ≤ L)
    (h2 : L ≤ label_nb g) :
    ∃ r, r ∈ repsList g ∧ labelAt g r = L ∧ r < g.shape.prod ∧ bval g r = true := by
  have hk : L - 1 < (repsList g).length := by
    unfold label_nb at h2
    omega
  refine ⟨(repsList g).get ⟨L - 1, hk⟩, List.get_mem _ _ _, ?_, ?_, ?_⟩
  · rw [labelAt_rep_get hk]
    omega
  · exact (mem_reps_iff.mp (List.get_mem _ _ _)).1
  · exact rep_bval (List.get_mem _ _ _)

theorem labelsData_getD {g : Grid Bool} {i : Nat} (h : i < g.shape.prod) :
    (labelsData g).getD i 0 = labelAt g i :=
  getD_map_range _ _ _ _ h

theorem foldr_max_le {l : List Nat} {b : Nat} (h : ∀ x ∈ l, x ≤ b) :
    l.foldr max 0 ≤ b := by
  induction l with
  | nil => exact Nat.zero_le _
  | cons a l ih =>
      simp only [List.foldr_cons, max_le_iff]
      exact ⟨h a (List.mem_cons_self a l), ih fun x hx => h x (List.mem_cons_of_mem a hx)⟩

theorem labelsData_max {g : Grid Bool} (hwf : g.WF) :
    (labelsData g).foldr max 0 = label_nb g := by
  apply Nat.le_antisymm
  · apply foldr_max_le
    intro x hx
    unfold labelsData at hx
    rcases List.mem_map.mp hx with ⟨i, _, rfl⟩
    exact labelAt_le hwf i
  · rcases Nat.eq_zero_or_pos (label_nb g) with h0 | h0
    · omega
    · obtain ⟨r, _, hL, hrn, _⟩ := exists_rep_of_label h0 le_rfl
      have : labelAt g r ∈ labelsData g :=
        List.mem_map.mpr ⟨r, List.mem_range.mpr hrn, rfl⟩
      rw [hL] at this
      exact le_foldr_max_of_mem this

theorem bincount_length (l : List Nat) :
    (bincount l).length = l.foldr max 0 + 1 := by
  unfold bincount
  rw [List.length_map, List.length_range]

theorem bincount_getD {l : List Nat} {v : Nat} (h : v ≤ l.foldr max 0) :
    (bincount l).getD v 0 = l.count v := by
  unfold bincount
  exact getD_map_range _ _ _ _ (by omega)

theorem bincount_getD_ge {l : List Nat} {v : Nat} (h : l.foldr max 0 < v) :
    (bincount l).getD v 0 = 0 := by
  unfold bincount
  exact getD_map_range_ge _ _ _ _ (by omega)

/-! ### Lemmas: first-occurrence argmax -/

theorem argmaxFirst_aux (l : List Nat) (m : Nat) :
    ((List.range m).foldl (fun b j => if l.getD b 0 < l.getD j 0 then j else b) 0 = 0 ∨
      (List.range m).foldl (fun b j => if l.getD b 0 < l.getD j 0 then j else b) 0 < m) ∧
    (∀ j < m, l.getD j 0 ≤
      l.getD ((List.range m).foldl (fun b j => if l.getD b 0 < l.getD j 0 then j else b) 0) 0) ∧
    (∀ j < m, l.getD ((List.range m).foldl (fun b j => if l.getD b 0 < l.getD j 0 then j else b) 0) 0 ≤
      l.getD j 0 →
      (List.range m).foldl (fun b j => if l.getD b 0 < l.getD j 0 then j else b) 0 ≤ j) := by
  induction m with
  | zero => exact ⟨Or.inl rfl, fun j hj => absurd hj (Nat.not_lt_zero j), fun j hj => absurd hj (Nat.not_lt_zero j)⟩
  | succ m ih =>
      obtain ⟨ih1, ih2, ih3⟩ := ih
      set f : Nat → Nat → Nat := fun b j => if l.getD b 0 < l.getD j 0 then j else b with hf
      set r := (List.range m).foldl f 0 with hr
      have hstep : (List.range (m + 1)).foldl f 0 = f r m := by
        rw [List.range_succ, List.foldl_append, List.foldl_cons, List.foldl_nil]
      rw [hstep]
      by_cases hup : l.getD r 0 < l.getD m 0
      · have hfr : f r m = m := if_pos hup
        rw [hfr]
        refine ⟨Or.inr (Nat.lt_succ_self m), ?_, ?_⟩
        · intro j hj
          rcases Nat.lt_succ_iff_lt_or_eq.mp hj with hj | rfl
          · exact le_trans (ih2 j hj) (le_of_lt hup)
          · exact le_rfl
        · intro j hj hle
          rcases Nat.lt_succ_iff_lt_or_eq.mp hj with hj | rfl
          · exact absurd (lt_of_lt_of_le hup (le_trans hle (ih2 j hj))) (lt_irrefl _)
          · exact le_rfl
      · have hfr : f r m = r := if_neg hup
        rw [hfr]
        refine ⟨?_, ?_, ?_⟩
        · rcases ih1 with h | h
          · exact Or.inl h
          · exact Or.inr (Nat.lt_succ_of_lt h)
        · intro j hj
          rcases Nat.lt_succ_iff_lt_or_eq.mp hj with hj | rfl
          · exact ih2 j hj
          · exact Nat.le_of_not_lt hup
        · intro j hj _
          rcases Nat.lt_succ_iff_lt_or_eq.mp hj with hj | rfl
          · exact ih3 j hj (by assumption)
          · rcases ih1 with h | h
            · omega
            · omega

theorem argmaxFirst_le (l : List Nat) {j : Nat} (hj : j < l.length) :
    l.getD j 0 ≤ l.getD (argmaxFirst l) 0 :=
  (argmaxFirst_aux l l.length).2.1 j hj

theorem argmaxFirst_first (l : List Nat) {j : Nat} (hj : j < l.length)
    (h : l.getD (argmaxFirst l) 0 ≤ l.getD j 0) : argmaxFirst l ≤ j :=
  (argmaxFirst_aux l l.length).2.2 j hj h

theorem argmaxFirst_lt_length (l : List Nat) (h : l ≠ []) :
    argmaxFirst l < l.length := by
  unfold argmaxFirst
  rcases (argmaxFirst_aux l l.length).1 with h0 | h0
  · rw [h0]
    exact List.length_pos.mpr h
  · exact h0

/-! ### Lemmas: the size table -/

theorem sizeTable_length {g : Grid Bool} (hwf : g.WF) :
    (sizeTable g).length = label_nb g + 1 := by
  unfold sizeTable
  rw [List.length_set, bincount_length, labelsData_max hwf]

theorem sizeTable_getD_zero (g : Grid Bool) : (sizeTable g).getD 0 0 = 0 := by
  unfold sizeTable
  apply getD_set_self
  rw [bincount_length]
  omega

theorem sizeTable_getD {g : Grid Bool} (hwf : g.WF) {v : Nat} (h1 : 1 ≤ v)
    (h2 : v ≤ label_nb g) : (sizeTable g).getD v 0 = (labelsData g).count v := by
  unfold sizeTable
  rw [getD_set_ne _ _ _ (by omega)]
  exact bincount_getD (by rw [labelsData_max hwf]; omega)

theorem sizeTable_getD_gt {g : Grid Bool} (hwf : g.WF) {v : Nat}
    (h : label_nb g < v) : (sizeTable g).getD v 0 = 0 := by
  unfold sizeTable
  rw [getD_set_ne _ _ _ (by omega)]
  exact bincount_getD_ge (by rw [labelsData_max hwf]; omega)

theorem count_label_pos {g : Grid Bool} (hwf : g.WF) {L : Nat} (h1 : 1 ≤ L)
    (h2 : L ≤ label_nb g) : 0 < (labelsData g).count L := by
  obtain ⟨r, _, hL, hrn, _⟩ := exists_rep_of_label h1 h2
  rw [List.count_pos_iff]
  exact List.mem_map.mpr ⟨r, List.mem_range.mpr hrn, hL⟩

theorem argmax_sizeTable_valid {g : Grid Bool} (hwf : g.WF)
    (h : 1 ≤ label_nb g) :
    1 ≤ argmaxFirst (sizeTable g) ∧ argmaxFirst (sizeTable g) ≤ label_nb g := by
  have hne : sizeTable g ≠ [] := by
    intro h0
    have := sizeTable_length hwf
    rw [h0] at this
    simp at this
  have hlt := argmaxFirst_lt_length _ hne
  rw [sizeTable_length hwf] at hlt
  refine ⟨?_, by omega⟩
  rcases Nat.eq_zero_or_pos (argmaxFirst (sizeTable g)) with h0 | h0
  · exfalso
    have hle := @argmaxFirst_le (sizeTable g) 1
      (by rw [sizeTable_length hwf]; omega)
    rw [h0, sizeTable_getD_zero, sizeTable_getD hwf le_rfl h] at hle
    have := count_label_pos hwf le_rfl h
    omega
  · exact h0

theorem bval_labelMask {g : Grid Bool} {L i : Nat} :
    bval (labelMaskGrid g L) i = true ↔ i < g.shape.prod ∧ labelAt g i = L := by
  show ((labelsData g).map fun l => l == L).getD i false = true ↔ _
  unfold labelsData
  rw [List.map_map]
  by_cases h : i < g.shape.prod
  · rw [getD_map_range _ _ _ _ h]
    simp [h]
  · rw [getD_map_range_ge _ _ _ _ (by omega)]
    simp [h]

theorem labelMask_one_eq_self {g : Grid Bool} (hwf : g.WF)
    (h1 : label_nb g = 1) : labelMaskGrid g 1 = g := by
  obtain ⟨sh, da⟩ := g
  unfold labelMaskGrid labelsData
  simp only [Grid.mk.injEq, true_and]
  rw [List.map_map]
  apply List.ext_getElem
  · simp only [List.length_map, List.length_range]
    exact hwf.symm
  · intro i hi1 hi2
    simp only [List.getElem_map, List.getElem_range]
    set g' : Grid Bool := ⟨sh, da⟩ with hg
    have hlen : i < g'.shape.prod := by simpa using hi1
    have hbv : bval g' i = da[i] := by
      show da.getD i false = da[i]
      exact List.getD_eq_getElem da false hi2
    by_cases hb : bval g' i = true
    · have hge := labelAt_pos hb
      have hle := labelAt_le hwf i
      rw [h1] at hle
      have : labelAt g' i = 1 := by omega
      show (labelAt g' i == 1) = da[i]
      rw [this, ← hbv, hb]
      rfl
    · rw [Bool.not_eq_true] at hb
      have : labelAt g' i = 0 := labelAt_eq_zero_iff.mpr hb
      show (labelAt g' i == 1) = da[i]
      rw [this, ← hbv, hb]
      rfl

/-- C2 (claim): on a grid with no true cells `largest_component` reports
the no-components error (never an empty mask), and on a grid with at least
one true cell it returns a result rather than that error. -/
theorem claim_C2 (g : Grid Bool) (hwf : g.WF) :
    ((∀ i, bval g i = false) →
      largest_connected_component g =
        .error "No non-zero values: no connected components") ∧
    ((∃ i, bval g i = true) → ∃ out, largest_connected_component g = .ok out) := by
  constructor
  · intro h
    unfold largest_connected_component
    rw [if_pos ((label_nb_eq_zero_iff hwf).mpr h)]
  · rintro ⟨i, hi⟩
    have hnb : ¬ label_nb g = 0 := by
      intro h0
      have := (label_nb_eq_zero_iff hwf).mp h0 i
      rw [hi] at this
      exact Bool.noConfusion this
    unfold largest_connected_component
    rw [if_neg hnb]
    by_cases h1 : label_nb g = 1
    · rw [if_pos h1]
      exact ⟨g, rfl⟩
    · rw [if_neg h1]
      exact ⟨_, rfl⟩

theorem claim_C2_witness :
    ((⟨[2], [false, false]⟩ : Grid Bool).WF ∧
      largest_connected_component ⟨[2], [false, false]⟩ =
        .error "No non-zero values: no connected components") ∧
    ((⟨[2], [true, false]⟩ : Grid Bool).WF ∧
      ∃ out, largest_connected_component ⟨[2], [true, false]⟩ = .ok out) := by
  constructor
  · refine ⟨by decide, ?_⟩
    exact (claim_C2 ⟨[2], [false, false]⟩ (by decide)).1
      (fun i => by match i with | 0 => rfl | 1 => rfl | (n+2) => rfl)
  · refine ⟨by decide, ?_⟩
    exact (claim_C2 ⟨[2], [true, false]⟩ (by decide)).2 ⟨0, rfl⟩

/-- C3 (claim): on a grid whose true cells form exactly one connected
component, `largest_connected_component` short-circuits and returns the
input grid (casting a boolean grid to boolean is the identity), and the
general path — size table, background count forced to zero, argmax
selection — produces the identical mask. -/
theorem claim_C3 (g : Grid Bool) (hwf : g.WF) (h1 : label_nb g = 1) :
    largest_connected_component g = .ok g ∧
    largest_connected_component_general g = largest_connected_component g := by
  have hsc : largest_connected_component g = .ok g := by
    unfold largest_connected_component
    rw [if_neg (by omega), if_pos h1]
  refine ⟨hsc, ?_⟩
  have hL := argmax_sizeTable_valid hwf (by omega)
  have hL1 : argmaxFirst (sizeTable g) = 1 := by omega
  unfold largest_connected_component_general
  rw [if_neg (by omega)]
  show Except.ok (labelMaskGrid g (argmaxFirst (sizeTable g))) = _
  rw [hL1, labelMask_one_eq_self hwf h1, hsc]

theorem claim_C3_witness :
    ((⟨[3], [true, true, false]⟩ : Grid Bool).WF ∧
      label_nb ⟨[3], [true, true, false]⟩ = 1) ∧
    largest_connected_component ⟨[3], [true, true, false]⟩ =
        .ok ⟨[3], [true, true, false]⟩ ∧
    largest_connected_component_general ⟨[3], [true, true, false]⟩ =
      largest_connected_component ⟨[3], [true, true, false]⟩ := by
  refine ⟨⟨by decide, by decide⟩, ?_⟩
  exact claim_C3 ⟨[3], [true, true, false]⟩ (by decide) (by decide)

theorem firstCellOf_eq_get {g : Grid Bool} (hwf : g.WF) {L : Nat}
    (h1 : 1 ≤ L) (hk : L - 1 < (repsList g).length) :
    firstCellOf g L = (repsList g).get ⟨L - 1, hk⟩ := by
  set r := (repsList g).get ⟨L - 1, hk⟩ with hrdef
  have hmem : r ∈ repsList g := List.get_mem _ _ _
  have hrn : r < g.shape.prod := (mem_reps_iff.mp hmem).1
  have hlab : labelAt g r = L := by
    rw [hrdef, labelAt_rep_get hk]
    omega
  have hmin : ∀ i < r, labelAt g i ≠ L := by
    intro i hir hil
    have hbv : bval g i = true := by
      by_contra hb
      rw [Bool.not_eq_true] at hb
      have := labelAt_eq_zero_iff.mpr hb
      omega
    have hbr : bval g r = true := rep_bval hmem
    have heq := (labelAt_eq_iff hwf hbv hbr).mp (by rw [hil, hlab])
    have h3 := rep_fixed hmem
    have h4 := compMin_le_self (faceAdjOf g) g i
    omega
  unfold firstCellOf
  apply (List.findIdx_eq (by simpa using hrn)).mpr
  constructor
  · simp [List.getElem_range, hlab]
  · intro j hj
    rw [List.getElem_range]
    simp only [beq_eq_false_iff_ne, ne_eq]
    exact hmin j hj

theorem firstCellOf_label {g : Grid Bool} (hwf : g.WF) {L : Nat}
    (h1 : 1 ≤ L) (h2 : L ≤ label_nb g) :
    labelAt g (firstCellOf g L) = L := by
  have hk : L - 1 < (repsList g).length := by
    unfold label_nb at h2
    omega
  rw [firstCellOf_eq_get hwf h1 hk, labelAt_rep_get hk]
  omega

theorem firstCellOf_mono {g : Grid Bool} (hwf : g.WF) {u v : Nat}
    (hu1 : 1 ≤ u) (hv2 : v ≤ label_nb g) (huv : u ≤ v) :
    firstCellOf g u ≤ firstCellOf g v := by
  have hv1 : 1 ≤ v := le_trans hu1 huv
  have hku : u - 1 < (repsList g).length := by
    unfold label_nb at hv2
    omega
  have hkv : v - 1 < (repsList g).length := by
    unfold label_nb at hv2
    omega
  rw [firstCellOf_eq_get hwf hu1 hku, firstCellOf_eq_get hwf hv1 hkv]
  rcases Nat.lt_or_ge (u - 1) (v - 1) with hlt | hge
  · exact le_of_lt (List.Sorted.rel_get_of_lt (reps_sorted g) (by simpa using hlt))
  · have he : u - 1 = v - 1 := by omega
    simp only [he]
    exact le_rfl

/-- C10 (implicit claim): `largest_connected_component` is deterministic on
size ties.  When two different labels tie for the maximal cell count, the
returned mask is the component with the smallest positive label, which is
the tied component whose first cell comes earliest in the raster labeling
scan order.  (The embedding is a function, so equal inputs trivially give
equal outputs; the content is the first-index behaviour of `argmax`.) -/
theorem claim_C10 (g : Grid Bool) (hwf : g.WF) (l1 l2 : Nat)
    (hl1 : 1 ≤ l1) (hl1n : l1 ≤ label_nb g) (hl2 : 1 ≤ l2)
    (hl2n : l2 ≤ label_nb g) (hne : l1 ≠ l2)
    (hmax1 : ∀ v, (sizeTable g).getD v 0 ≤ (sizeTable g).getD l1 0)
    (htie : (sizeTable g).getD l2 0 = (sizeTable g).getD l1 0) :
    ∃ L, largest_connected_component g = .ok (labelMaskGrid g L) ∧
      1 ≤ L ∧ L ≤ label_nb g ∧
      (sizeTable g).getD L 0 = (sizeTable g).getD l1 0 ∧
      (∀ v, (sizeTable g).getD v 0 = (sizeTable g).getD l1 0 → L ≤ v) ∧
      (∀ v, 1 ≤ v → v ≤ label_nb g →
        (sizeTable g).getD v 0 = (sizeTable g).getD l1 0 →
        firstCellOf g L ≤ firstCellOf g v) := by
  have hnb2 : 2 ≤ label_nb g := by omega
  set L := argmaxFirst (sizeTable g) with hL
  have hvalid := argmax_sizeTable_valid hwf (by omega)
  have hlen : (sizeTable g).length = label_nb g + 1 := sizeTable_length hwf
  have hmaxeq : (sizeTable g).getD L 0 = (sizeTable g).getD l1 0 := by
    apply le_antisymm (hmax1 L)
    exact argmaxFirst_le (sizeTable g) (by omega)
  have hres : largest_connected_component g = .ok (labelMaskGrid g L) := by
    unfold largest_connected_component
    rw [if_neg (by omega), if_neg (by omega)]
    rfl
  have hpos1 : 0 < (sizeTable g).getD l1 0 := by
    rw [sizeTable_getD hwf hl1 hl1n]
    exact count_label_pos hwf hl1 hl1n
  have hfirst : ∀ v, (sizeTable g).getD v 0 = (sizeTable g).getD l1 0 → L ≤ v := by
    intro v hv
    have hvlen : v < (sizeTable g).length := by
      by_contra hge
      rw [List.getD_eq_default _ _ (by omega)] at hv
      omega
    exact argmaxFirst_first (sizeTable g) hvlen (by rw [hv]; exact le_of_eq hmaxeq)
  refine ⟨L, hres, hvalid.1, hvalid.2, hmaxeq, hfirst, ?_⟩
  intro v hv1 hv2 hveq
  exact firstCellOf_mono hwf hvalid.1 hv2 (hfirst v hveq)

theorem claim_C10_witness :
    ∃ L, largest_connected_component ⟨[3], [true, false, true]⟩ =
        .ok (labelMaskGrid ⟨[3], [true, false, true]⟩ L) ∧
      1 ≤ L ∧ L ≤ label_nb ⟨[3], [true, false, true]⟩ ∧
      (sizeTable ⟨[3], [true, false, true]⟩).getD L 0 =
        (sizeTable ⟨[3], [true, false, true]⟩).getD 1 0 ∧
      (∀ v, (sizeTable ⟨[3], [true, false, true]⟩).getD v 0 =
        (sizeTable ⟨[3], [true, false, true]⟩).getD 1 0 → L ≤ v) ∧
      (∀ v, 1 ≤ v → v ≤ label_nb ⟨[3], [true, false, true]⟩ →
        (sizeTable ⟨[3], [true, false, true]⟩).getD v 0 =
          (sizeTable ⟨[3], [true, false, true]⟩).getD 1 0 →
        firstCellOf ⟨[3], [true, false, true]⟩ L ≤
          firstCellOf ⟨[3], [true, false, true]⟩ v) := by
  apply claim_C10 ⟨[3], [true, false, true]⟩ (by decide) 1 2 (by decide) (by decide)
    (by decide) (by decide) (by decide) ?_ (by decide)
  have hst : sizeTable ⟨[3], [true, false, true]⟩ = [0, 1, 1] := by decide
  intro v
  rw [hst]
  match v with
  | 0 => decide
  | 1 => decide
  | 2 => decide
  | (n + 3) => exact Nat.zero_le _

/-- C1 (counterexample): the labeling does not use diagonal-inclusive
connectivity.  On the 2×2 grid with true cells on the main diagonal the
two cells are diagonally adjacent yet receive the distinct labels 1 and 2,
so the claim as stated is false. -/
theorem claim_C1_counterexample : ¬ ClaimC1Statement := by
  intro h
  have h1 := (h ⟨[2, 2], [true, false, false, true]⟩ (by decide)).1 0 3
    (by decide) (by decide) (by decide)
  rw [show labelAt ⟨[2, 2], [true, false, false, true]⟩ 0 = 1 from by decide,
      show labelAt ⟨[2, 2], [true, false, false, true]⟩ 3 = 2 from by decide] at h1
  exact absurd h1 (by decide)

/-- Characterization of a successful `largest_connected_component` result:
the output is true exactly on the face-connected component of some true
cell `w`, has the input's shape, and is well-formed. -/
theorem lcc_region (g : Grid Bool) (hwf : g.WF) (out : Grid Bool)
    (hout : largest_connected_component g = .ok out) :
    ∃ w, w < g.shape.prod ∧ bval g w = true ∧ out.shape = g.shape ∧ out.WF ∧
      ∀ j, bval out j = true ↔ FReach g w j := by
  unfold largest_connected_component at hout
  by_cases h0 : label_nb g = 0
  · rw [if_pos h0] at hout
    exact absurd hout (by simp)
  · rw [if_neg h0] at hout
    by_cases h1 : label_nb g = 1
    · rw [if_pos h1] at hout
      obtain ⟨r, _, hlab, hrn, hrb⟩ := exists_rep_of_label le_rfl h1.ge
      have hout' : out = g := by injection hout with h; exact h.symm
      subst hout'
      refine ⟨r, hrn, hrb, rfl, hwf, ?_⟩
      intro j
      constructor
      · intro hj
        have hle := labelAt_le hwf j
        have hge := labelAt_pos hj
        rw [h1] at hle
        exact (labelAt_eq_iff_reach hwf hrb hj).mp (by omega)
      · intro hr
        rcases reach_target_true _ _ hr with rfl | hb
        · exact hrb
        · exact hb
    · rw [if_neg h1] at hout
      have hnb : 1 ≤ label_nb g := by omega
      set L := argmaxFirst (sizeTable g) with hL
      have hvalid := argmax_sizeTable_valid hwf hnb
      have hout' : out = labelMaskGrid g L := by
        injection hout with h
        exact h.symm
      obtain ⟨r, hmem, hlab, hrn, hrb⟩ := exists_rep_of_label hvalid.1 hvalid.2
      have hwfo : (labelMaskGrid g L).WF := by
        unfold Grid.WF labelMaskGrid labelsData
        simp
      refine ⟨r, hrn, hrb, by rw [hout']; rfl, by rw [hout']; exact hwfo, ?_⟩
      intro j
      rw [hout', bval_labelMask]
      constructor
      · rintro ⟨hjn, hjl⟩
        have hjb : bval g j = true := by
          by_contra hb
          rw [Bool.not_eq_true] at hb
          have := labelAt_eq_zero_iff.mpr hb
          omega
        exact (labelAt_eq_iff_reach hwf hrb hjb).mp (by omega)
      · intro hr
        have hjb : bval g j = true := by
          rcases reach_target_true _ g hr with rfl | hb
          · exact hrb
          · exact hb
        refine ⟨bval_lt hwf hjb, ?_⟩
        have := (labelAt_eq_iff_reach hwf hrb hjb).mpr hr
        omega

/-- C1 (amended): the labeling uses face connectivity — scipy's default
connectivity-1 structuring element joins true cells that differ by exactly
1 in exactly one axis (6-connectivity in 3-D; diagonal neighbours land in
different components) — and the returned mask is true exactly on one
maximal face-connected region of true cells. -/
theorem claim_C1_amended (g : Grid Bool) (hwf : g.WF) :
    (∀ i j, bval g i = true → bval g j = true → faceAdjB g.shape i j = true →
      labelAt g i = labelAt g j) ∧
    ∀ out, largest_connected_component g = .ok out →
      IsSingleRegionMask (faceAdjB g.shape) g out := by
  constructor
  · intro i j hi hj hadj
    exact (labelAt_eq_iff_reach hwf hi hj).mpr
      (Relation.ReflTransGen.single ⟨hadj, hj⟩)
  · intro out hout
    obtain ⟨w, hwn, hwb, _, _, hiff⟩ := lcc_region g hwf out hout
    exact ⟨w, hwn, hwb, hiff⟩

theorem claim_C1_amended_witness :
    (⟨[2], [true, false]⟩ : Grid Bool).WF ∧
    (∀ i j, bval (⟨[2], [true, false]⟩ : Grid Bool) i = true →
      bval (⟨[2], [true, false]⟩ : Grid Bool) j = true →
      faceAdjB [2] i j = true →
      labelAt ⟨[2], [true, false]⟩ i = labelAt ⟨[2], [true, false]⟩ j) ∧
    ∀ out, largest_connected_component ⟨[2], [true, false]⟩ = .ok out →
      IsSingleRegionMask (faceAdjB [2]) ⟨[2], [true, false]⟩ out :=
  ⟨by decide, claim_C1_amended ⟨[2], [true, false]⟩ (by decide)⟩

/-! ### Lemmas: idempotence of the component selector -/

theorem label_nb_eq_one {h : Grid Bool} (hwf : h.WF)
    (hex : ∃ i, bval h i = true)
    (hconn : ∀ i j, bval h i = true → bval h j = true → FReach h i j) :
    label_nb h = 1 := by
  obtain ⟨w, hw⟩ := hex
  set c := compMin (faceAdjOf h) h w with hc
  have hcmem : c ∈ repsList h := compMin_mem_reps hwf hw
  have hall : ∀ x ∈ repsList h, x = c := by
    intro x hx
    have hxb : bval h x = true := rep_bval hx
    have hreach := hconn w x hw hxb
    have hcm := compMin_congr (faceAdjOf h) h (face_hadj h) (face_hsym h) hw hxb hreach
    rw [rep_fixed hx] at hcm
    exact hcm.symm
  unfold label_nb
  rcases hrl : repsList h with _ | ⟨a, l'⟩
  · rw [hrl] at hcmem
    cases hcmem
  · rcases l' with _ | ⟨b, l''⟩
    · rfl
    · exfalso
      have hnd := reps_nodup h
      rw [hrl] at hnd hall
      have ha := hall a (List.mem_cons_self _ _)
      have hb := hall b (List.mem_cons_of_mem _ (List.mem_cons_self _ _))
      rw [List.nodup_cons] at hnd
      apply hnd.1
      rw [ha.trans hb.symm]
      exact List.mem_cons_self _ _

theorem freach_transfer (g out : Grid Bool) (w : Nat) (hsh : out.shape = g.shape)
    (hsub : ∀ j, FReach g w j → bval out j = true) :
    ∀ j, FReach g w j → FReach out w j := by
  intro j hj
  induction hj with
  | refl => exact Relation.ReflTransGen.refl
  | @tail b c hab hbc ih =>
      refine Relation.ReflTransGen.tail ih ⟨?_, ?_⟩
      · show faceAdjB out.shape b c = true
        rw [hsh]
        exact hbc.1
      · exact hsub c (Relation.ReflTransGen.tail hab hbc)

theorem lcc_idempotent (g : Grid Bool) (hwf : g.WF) (out : Grid Bool)
    (hout : largest_connected_component g = .ok out) :
    largest_connected_component out = .ok out := by
  obtain ⟨w, hwn, hwb, hsh, hwfo, hiff⟩ := lcc_region g hwf out hout
  have hwo : bval out w = true := (hiff w).mpr Relation.ReflTransGen.refl
  have htrans := freach_transfer g out w hsh fun j hj => (hiff j).mpr hj
  have hconn : ∀ i j, bval out i = true → bval out j = true → FReach out i j := by
    intro i j hi hj
    have h1 : FReach out w i := htrans i ((hiff i).mp hi)
    have h2 : FReach out w j := htrans j ((hiff j).mp hj)
    exact (reach_symm _ out (face_hsym out) hwo h1).trans h2
  have hnb : label_nb out = 1 := label_nb_eq_one hwfo ⟨w, hwo⟩ hconn
  unfold largest_connected_component
  rw [if_neg (by omega), if_pos hnb]

/-! ### Lemmas: windowed maximum and candidate mask -/

theorem coordDiffs_self_all (s : List Nat) (i md : Nat) :
    (coordDiffs s i i).all (· ≤ md) = true := by
  unfold coordDiffs
  rw [List.all_eq_true]
  intro x hx
  have : ∀ c : List Nat, x ∈ List.zipWith natDist c c → x = 0 := by
    intro c
    induction c with
    | nil => intro h; cases h
    | cons a c ih =>
        intro h
        rcases List.mem_cons.mp h with rfl | h
        · unfold natDist
          simp
        · exact ih h
  have hx0 := this _ hx
  simp [hx0]

theorem chebInWin_self {s : List Nat} {i : Nat} (h : i < s.prod) (md : Nat) :
    chebInWinB s md i i = true := by
  unfold chebInWinB
  rw [Bool.and_eq_true, Bool.and_eq_true]
  exact ⟨⟨by simpa using h, by simpa using h⟩, coordDiffs_self_all s i md⟩

theorem mem_windowIdx_iff {s : List Nat} {md i j : Nat} :
    j ∈ windowIdx s md i ↔ chebInWinB s md i j = true := by
  unfold windowIdx
  rw [List.mem_filter, List.mem_range]
  constructor
  · exact fun h => h.2
  · intro h
    refine ⟨?_, h⟩
    unfold chebInWinB at h
    rw [Bool.and_eq_true, Bool.and_eq_true] at h
    simpa using h.1.2

theorem center_mem_windowIdx {s : List Nat} {i : Nat} (h : i < s.prod) (md : Nat) :
    i ∈ windowIdx s md i :=
  mem_windowIdx_iff.mpr (chebInWin_self h md)

theorem le_maximum_filter_center {α : Type} [LinearOrderedCommRing α] (g : Grid α) (md i : Nat) :
    qval g i ≤ maximum_filter_at g md i :=
  le_foldl_max _ _

theorem le_maximum_filter_of_mem {α : Type} [LinearOrderedCommRing α] {g : Grid α} {md i j : Nat}
    (h : j ∈ windowIdx g.shape md i) :
    qval g j ≤ maximum_filter_at g md i := by
  unfold maximum_filter_at
  have hmem : qval g j ∈ (windowIdx g.shape md i).map (qval g) :=
    List.mem_map.mpr ⟨j, h, rfl⟩
  by_cases he : windowEscapes g.shape md i
  · simp only [he, if_true]
    exact le_foldl_max_of_mem _ (List.mem_cons_of_mem _ hmem)
  · simp only [he, if_false]
    exact le_foldl_max_of_mem _ hmem

theorem zero_le_maximum_filter_of_escapes {α : Type} [LinearOrderedCommRing α] {g : Grid α} {md i : Nat}
    (h : windowEscapes g.shape md i = true) :
    0 ≤ maximum_filter_at g md i := by
  unfold maximum_filter_at
  simp only [h, if_true]
  exact le_foldl_max_of_mem _ (List.mem_cons_self _ _)

theorem maximum_filter_le {α : Type} [LinearOrderedCommRing α] {g : Grid α} {md i : Nat} {x : α}
    (hc : qval g i ≤ x)
    (hw : ∀ j ∈ windowIdx g.shape md i, qval g j ≤ x)
    (he : windowEscapes g.shape md i = true → 0 ≤ x) :
    maximum_filter_at g md i ≤ x := by
  unfold maximum_filter_at
  by_cases hesc : windowEscapes g.shape md i
  · simp only [hesc, if_true]
    rw [foldl_max_le_iff]
    refine ⟨hc, ?_⟩
    intro a ha
    rcases List.mem_cons.mp ha with rfl | ha
    · exact he hesc
    · rcases List.mem_map.mp ha with ⟨j, hj, rfl⟩
      exact hw j hj
  · simp only [hesc, if_false]
    rw [foldl_max_le_iff]
    refine ⟨hc, ?_⟩
    intro a ha
    rcases List.mem_map.mp ha with ⟨j, hj, rfl⟩
    exact hw j hj

/-- C5 (claim): a cell is a plateau/local-maximum candidate exactly when
its value equals the window maximum — equivalently, when its value
dominates every in-bounds cell within Chebyshev distance `min_distance`
and additionally is at least the 0 padding whenever the window leaves the
grid — and the masked grid flattens every non-candidate to the numeric
value 0 (`image *= mask`). -/
theorem claim_C5 {α : Type} [LinearOrderedCommRing α] (g : Grid α) (md i : Nat) (hin : i < g.shape.prod) :
    (candAt g md i = true ↔
      ((∀ j, j < g.shape.prod → (coordDiffs g.shape i j).all (· ≤ md) = true →
          qval g j ≤ qval g i) ∧
        (windowEscapes g.shape md i = true → 0 ≤ qval g i))) ∧
    maskedAt g md i = if candAt g md i = true then qval g i else 0 := by
  constructor
  · unfold candAt
    rw [decide_eq_true_iff]
    constructor
    · intro hmax
      constructor
      · intro j hjn hjd
        have hj : j ∈ windowIdx g.shape md i := by
          apply mem_windowIdx_iff.mpr
          unfold chebInWinB
          rw [Bool.and_eq_true, Bool.and_eq_true]
          exact ⟨⟨by simpa using hin, by simpa using hjn⟩, hjd⟩
        rw [hmax]
        exact le_maximum_filter_of_mem hj
      · intro he
        rw [hmax]
        exact zero_le_maximum_filter_of_escapes he
    · rintro ⟨hdom, hpad⟩
      apply le_antisymm (le_maximum_filter_center g md i)
      apply maximum_filter_le le_rfl
      · intro j hj
        have hc := mem_windowIdx_iff.mp hj
        unfold chebInWinB at hc
        rw [Bool.and_eq_true, Bool.and_eq_true] at hc
        exact hdom j (by simpa using hc.1.2) hc.2
      · exact hpad
  · unfold maskedAt
    by_cases hc : candAt g md i = true
    · simp [hc]
    · simp [hc]

theorem claim_C5_witness :
    (0 < ([3] : List Nat).prod ∧
      (candAt (⟨[3], [0, 5, 0]⟩ : Grid Int) 1 0 = true ↔
        ((∀ j, j < ([3] : List Nat).prod →
            (coordDiffs [3] 0 j).all (· ≤ 1) = true →
            qval (⟨[3], [0, 5, 0]⟩ : Grid Int) j ≤ qval (⟨[3], [0, 5, 0]⟩ : Grid Int) 0) ∧
          (windowEscapes [3] 1 0 = true → 0 ≤ qval (⟨[3], [0, 5, 0]⟩ : Grid Int) 0))) ∧
      maskedAt (⟨[3], [0, 5, 0]⟩ : Grid Int) 1 0 =
        if candAt (⟨[3], [0, 5, 0]⟩ : Grid Int) 1 0 = true
        then qval (⟨[3], [0, 5, 0]⟩ : Grid Int) 0
        else 0) := by
  refine ⟨by decide, ?_⟩
  exact claim_C5 (⟨[3], [0, 5, 0]⟩ : Grid Int) 1 0 (by decide)

/-! ### Lemmas: thresholding and truncation -/

theorem mem_peakCoords_iff {α : Type} [LinearOrderedCommRing α] {g : Grid α} {md : Nat} {tAbs tRel : α} {i : Nat} :
    i ∈ peakCoords g md tAbs tRel ↔
      i < g.shape.prod ∧ peak_threshold g md tAbs tRel < maskedAt g md i := by
  unfold peakCoords
  rw [List.mem_filter, List.mem_range]
  simp

theorem peakCoords_nodup {α : Type} [LinearOrderedCommRing α] (g : Grid α) (md : Nat) (tAbs tRel : α) :
    (peakCoords g md tAbs tRel).Nodup :=
  (List.nodup_range _).filter _

theorem mem_pairs_eq {α : Type} [LinearOrderedCommRing α] {g : Grid α} {md : Nat} {tAbs tRel : α} {p : Nat × α}
    (h : p ∈ (peakCoords g md tAbs tRel).map fun i => (i, maskedAt g md i)) :
    p.1 ∈ peakCoords g md tAbs tRel ∧ p.2 = maskedAt g md p.1 := by
  rcases List.mem_map.mp h with ⟨i, hi, rfl⟩
  exact ⟨hi, rfl⟩

theorem sortPairsDesc_perm {α : Type} [LinearOrderedCommRing α] (ps : List (Nat × α)) : List.Perm (sortPairsDesc ps) ps := by
  unfold sortPairsDesc
  exact (List.reverse_perm _).trans (List.perm_insertionSort pairLe ps)

theorem sortPairsDesc_sorted {α : Type} [LinearOrderedCommRing α] (ps : List (Nat × α)) :
    (sortPairsDesc ps).Pairwise fun p q => q.2 ≤ p.2 := by
  unfold sortPairsDesc
  rw [List.pairwise_reverse]
  exact List.sorted_insertionSort pairLe ps

theorem keptCoords_subset {α : Type} [LinearOrderedCommRing α] {g : Grid α} {md : Nat} {tAbs tRel : α}
    {numPeaks : Option Nat} {i : Nat} (h : i ∈ keptCoords g md tAbs tRel numPeaks) :
    i ∈ peakCoords g md tAbs tRel := by
  rcases numPeaks with _ | k
  all_goals simp only [keptCoords] at h
  · exact h
  · by_cases hlen : k < (peakCoords g md tAbs tRel).length
    · rw [if_pos hlen] at h
      rcases List.mem_map.mp h with ⟨p, hp, rfl⟩
      have hp2 : p ∈ sortPairsDesc ((peakCoords g md tAbs tRel).map
          fun i => (i, maskedAt g md i)) := List.mem_of_mem_take hp
      have hp3 := (sortPairsDesc_perm _).mem_iff.mp hp2
      exact (mem_pairs_eq hp3).1
    · rw [if_neg hlen] at h
      exact h

theorem getD_replicate {α : Type} (n i : Nat) (a : α) :
    (List.replicate n a).getD i a = a := by
  rcases Nat.lt_or_ge i n with h | h
  · rw [List.getD_eq_getElem _ _ (by simpa using h)]
    apply List.getElem_replicate
  · exact List.getD_eq_default _ _ (by simpa using h)

theorem bval_peak_out {α : Type} [LinearOrderedCommRing α] {g : Grid α} {md : Nat} {tAbs tRel : α}
    {numPeaks : Option Nat} {i : Nat} (hwf : g.WF) (hnf : isFlat g = false) :
    bval (_peak_local_max g md tAbs tRel numPeaks) i = true ↔
      i ∈ keptCoords g md tAbs tRel numPeaks := by
  unfold _peak_local_max
  rw [if_neg (by rw [hnf]; exact Bool.false_ne_true)]
  show ((List.range g.data.length).map _).getD i false = true ↔ _
  rcases Nat.lt_or_ge i g.data.length with h | h
  · rw [getD_map_range _ _ _ _ h]
    rw [List.contains_eq_any_beq]
    simp
  · rw [getD_map_range_ge _ _ _ _ h]
    constructor
    · intro hF
      exact absurd hF Bool.false_ne_true
    · intro hm
      exfalso
      have := mem_peakCoords_iff.mp (keptCoords_subset hm)
      rw [hwf] at h
      omega

/-- C4 (claim): the selection threshold is
`max(max(masked_grid) * threshold_rel, threshold_abs)` computed on the
masked grid, a cell can appear in the output only when its masked value
strictly exceeds that threshold, and a candidate whose masked value
exactly equals the threshold is excluded from the output mask. -/
theorem claim_C4 {α : Type} [LinearOrderedCommRing α] (g : Grid α) (md : Nat) (tAbs tRel : α)
    (numPeaks : Option Nat) (hwf : g.WF) :
    peak_threshold g md tAbs tRel =
      max (qListMax (maskedData g md) * tRel) tAbs ∧
    (∀ i, bval (_peak_local_max g md tAbs tRel numPeaks) i = true →
      peak_threshold g md tAbs tRel < maskedAt g md i) ∧
    (∀ i, maskedAt g md i = peak_threshold g md tAbs tRel →
      bval (_peak_local_max g md tAbs tRel numPeaks) i = false) := by
  have hmain : ∀ i, bval (_peak_local_max g md tAbs tRel numPeaks) i = true →
      peak_threshold g md tAbs tRel < maskedAt g md i := by
    intro i hi
    by_cases hnf : isFlat g
    · exfalso
      unfold _peak_local_max at hi
      rw [if_pos hnf] at hi
      have : bval ⟨g.shape, List.replicate g.data.length false⟩ i = false :=
        getD_replicate _ _ _
      rw [hi] at this
      exact Bool.true_eq_false ▸ Bool.noConfusion this
    · have := (bval_peak_out hwf (Bool.not_eq_true _ ▸ eq_false_of_ne_true hnf)).mp hi
      exact (mem_peakCoords_iff.mp (keptCoords_subset this)).2
  refine ⟨rfl, hmain, ?_⟩
  intro i heq
  by_contra hne
  rw [Bool.not_eq_false] at hne
  have := hmain i hne
  rw [heq] at this
  exact lt_irrefl _ this

theorem claim_C4_witness :
    (⟨[3], [0, 5, 0]⟩ : Grid Int).WF ∧
    (peak_threshold (⟨[3], [0, 5, 0]⟩ : Grid Int) 1 0 2 =
      max (qListMax (maskedData (⟨[3], [0, 5, 0]⟩ : Grid Int) 1) * 2) 0 ∧
    (∀ i, bval (_peak_local_max (⟨[3], [0, 5, 0]⟩ : Grid Int) 1 0 2 none) i = true →
      peak_threshold (⟨[3], [0, 5, 0]⟩ : Grid Int) 1 0 2 <
        maskedAt (⟨[3], [0, 5, 0]⟩ : Grid Int) 1 i) ∧
    (∀ i, maskedAt (⟨[3], [0, 5, 0]⟩ : Grid Int) 1 i =
        peak_threshold (⟨[3], [0, 5, 0]⟩ : Grid Int) 1 0 2 →
      bval (_peak_local_max (⟨[3], [0, 5, 0]⟩ : Grid Int) 1 0 2 none) i = false)) :=
  ⟨by decide, claim_C4 (⟨[3], [0, 5, 0]⟩ : Grid Int) 1 0 2 none (by decide)⟩

/-- C6 (claim): on a grid in which every cell holds the identical value,
`_peak_local_max` returns the all-false mask for every parameter
combination (the function is total, so no error is possible). -/
theorem claim_C6 {α : Type} [LinearOrderedCommRing α] (g : Grid α) (md : Nat) (tAbs tRel : α)
    (numPeaks : Option Nat) (hne : g.data ≠ [])
    (hsame : ∀ x ∈ g.data, x = g.data.headD 0) :
    _peak_local_max g md tAbs tRel numPeaks =
      ⟨g.shape, List.replicate g.data.length false⟩ ∧
    ∀ i, bval (_peak_local_max g md tAbs tRel numPeaks) i = false := by
  have hflat : isFlat g = true := by
    unfold isFlat
    rw [List.all_eq_true]
    intro x hx
    exact decide_eq_true (hsame x hx)
  have h1 : _peak_local_max g md tAbs tRel numPeaks =
      ⟨g.shape, List.replicate g.data.length false⟩ := by
    unfold _peak_local_max
    rw [if_pos hflat]
  refine ⟨h1, ?_⟩
  intro i
  rw [h1]
  exact getD_replicate _ _ _

theorem claim_C6_witness :
    ((⟨[2, 2], [7, 7, 7, 7]⟩ : Grid Int).data ≠ [] ∧
      ∀ x ∈ (⟨[2, 2], [7, 7, 7, 7]⟩ : Grid Int).data,
        x = (⟨[2, 2], [7, 7, 7, 7]⟩ : Grid Int).data.headD 0) ∧
    _peak_local_max (⟨[2, 2], [7, 7, 7, 7]⟩ : Grid Int) 2 3 2 (some 1) =
      ⟨[2, 2], List.replicate 4 false⟩ ∧
    ∀ i, bval (_peak_local_max (⟨[2, 2], [7, 7, 7, 7]⟩ : Grid Int) 2 3 2 (some 1)) i = false :=
  ⟨⟨by decide, by decide⟩,
    claim_C6 (⟨[2, 2], [7, 7, 7, 7]⟩ : Grid Int) 2 3 2 (some 1) (by decide) (by decide)⟩

/-! ### Lemmas: top-K truncation -/

theorem map_fst_pairs {α : Type} [LinearOrderedCommRing α] (g : Grid α) (md : Nat) (tAbs tRel : α) :
    (((peakCoords g md tAbs tRel).map fun i => (i, maskedAt g md i)).map Prod.fst) =
      peakCoords g md tAbs tRel := by
  rw [List.map_map]
  exact List.map_id _

theorem keptCoords_nodup {α : Type} [LinearOrderedCommRing α] (g : Grid α) (md : Nat) (tAbs tRel : α)
    (numPeaks : Option Nat) : (keptCoords g md tAbs tRel numPeaks).Nodup := by
  rcases numPeaks with _ | k
  · exact peakCoords_nodup g md tAbs tRel
  · simp only [keptCoords]
    by_cases hlen : k < (peakCoords g md tAbs tRel).length
    · rw [if_pos hlen]
      have hperm : List.Perm ((sortPairsDesc ((peakCoords g md tAbs tRel).map
          fun i => (i, maskedAt g md i))).map Prod.fst) (peakCoords g md tAbs tRel) := by
        have h1 := (sortPairsDesc_perm ((peakCoords g md tAbs tRel).map
          fun i => (i, maskedAt g md i))).map Prod.fst
        rw [map_fst_pairs] at h1
        exact h1
      have hnd : ((sortPairsDesc ((peakCoords g md tAbs tRel).map
          fun i => (i, maskedAt g md i))).map Prod.fst).Nodup :=
        hperm.nodup_iff.mpr (peakCoords_nodup g md tAbs tRel)
      exact hnd.sublist ((List.take_sublist k _).map Prod.fst)
    · rw [if_neg hlen]
      exact peakCoords_nodup g md tAbs tRel

theorem keptCoords_lt {α : Type} [LinearOrderedCommRing α] {g : Grid α} {md : Nat} {tAbs tRel : α}
    {numPeaks : Option Nat} (hwf : g.WF) {i : Nat}
    (h : i ∈ keptCoords g md tAbs tRel numPeaks) : i < g.data.length := by
  have h1 := (mem_peakCoords_iff.mp (keptCoords_subset h)).1
  have h2 : g.data.length = g.shape.prod := hwf
  omega

theorem trueCount_peak {α : Type} [LinearOrderedCommRing α] {g : Grid α} {md : Nat} {tAbs tRel : α}
    {numPeaks : Option Nat} (hwf : g.WF) (hnf : isFlat g = false) :
    trueCount (_peak_local_max g md tAbs tRel numPeaks) =
      (keptCoords g md tAbs tRel numPeaks).length := by
  unfold trueCount _peak_local_max
  rw [if_neg (by rw [hnf]; exact Bool.false_ne_true)]
  show (((List.range g.data.length).map fun i =>
      (keptCoords g md tAbs tRel numPeaks).contains i).count true) = _
  rw [List.count_eq_countP, List.countP_map]
  have hcp : ((List.range g.data.length).countP
      ((fun x => x == true) ∘ fun i => (keptCoords g md tAbs tRel numPeaks).contains i)) =
      ((List.range g.data.length).countP
        fun i => (keptCoords g md tAbs tRel numPeaks).contains i) := by
    apply List.countP_congr
    intro x _
    simp
  rw [hcp, List.countP_eq_length_filter]
  have hperm : List.Perm ((List.range g.data.length).filter
      fun i => (keptCoords g md tAbs tRel numPeaks).contains i)
      (keptCoords g md tAbs tRel numPeaks) := by
    apply (List.perm_ext_iff_of_nodup ((List.nodup_range _).filter _)
      (keptCoords_nodup g md tAbs tRel numPeaks)).mpr
    intro a
    rw [List.mem_filter, List.mem_range]
    constructor
    · intro h2
      have := h2.2
      rw [List.contains_eq_any_beq] at this
      simpa using this
    · intro h2
      refine ⟨keptCoords_lt hwf h2, ?_⟩
      rw [List.contains_eq_any_beq]
      simpa using h2
  exact hperm.length_eq

/-- C7 (claim): with `num_peaks = k`, when more than `k` candidates survive
the threshold exactly `k` cells are true in the output and every kept
cell's masked intensity dominates every discarded surviving candidate's;
when at most `k` survive, the output is exactly the surviving candidates.
In either case the output never contains more than `k` true cells. -/
theorem claim_C7 {α : Type} [LinearOrderedCommRing α] (g : Grid α) (md : Nat) (tAbs tRel : α) (k : Nat)
    (hwf : g.WF) (hnf : isFlat g = false) :
    (k < (peakCoords g md tAbs tRel).length →
      trueCount (_peak_local_max g md tAbs tRel (some k)) = k ∧
      (∀ i j, bval (_peak_local_max g md tAbs tRel (some k)) i = true →
        j ∈ peakCoords g md tAbs tRel →
        bval (_peak_local_max g md tAbs tRel (some k)) j = false →
        maskedAt g md j ≤ maskedAt g md i)) ∧
    ((peakCoords g md tAbs tRel).length ≤ k →
      ∀ i, bval (_peak_local_max g md tAbs tRel (some k)) i = true ↔
        i ∈ peakCoords g md tAbs tRel) ∧
    trueCount (_peak_local_max g md tAbs tRel (some k)) ≤ k := by
  set coords := peakCoords g md tAbs tRel with hcoords
  set pairs := coords.map (fun i => (i, maskedAt g md i)) with hpairs
  set dsorted := sortPairsDesc pairs with hdsorted
  have hdlen : dsorted.length = coords.length := by
    rw [hdsorted, (sortPairsDesc_perm pairs).length_eq, hpairs, List.length_map]
  constructor
  · intro hlen
    have hkept : keptCoords g md tAbs tRel (some k) = (dsorted.take k).map Prod.fst := by
      simp only [keptCoords]
      rw [if_pos hlen]
    constructor
    · rw [trueCount_peak hwf hnf, hkept, List.length_map, List.length_take]
      omega
    · intro i j hi hj hjout
      have hik : i ∈ keptCoords g md tAbs tRel (some k) := (bval_peak_out hwf hnf).mp hi
      rw [hkept] at hik
      rcases List.mem_map.mp hik with ⟨p, hp, rfl⟩
      have hq : (j, maskedAt g md j) ∈ pairs := List.mem_map.mpr ⟨j, hj, rfl⟩
      have hqd : (j, maskedAt g md j) ∈ dsorted := (sortPairsDesc_perm pairs).mem_iff.mpr hq
      have hqdrop : (j, maskedAt g md j) ∈ dsorted.drop k := by
        have hsplit := List.take_append_drop k dsorted
        rcases List.mem_append.mp (by rw [hsplit]; exact hqd) with hqt | hqd2
        · exfalso
          have : j ∈ keptCoords g md tAbs tRel (some k) := by
            rw [hkept]
            exact List.mem_map.mpr ⟨(j, maskedAt g md j), hqt, rfl⟩
          have := (bval_peak_out hwf hnf).mpr this
          rw [hjout] at this
          exact Bool.noConfusion this
        · exact hqd2
      have hpw := sortPairsDesc_sorted pairs
      rw [← hdsorted, ← List.take_append_drop k dsorted] at hpw
      have hrel := (List.pairwise_append.mp hpw).2.2 p hp _ hqdrop
      have hpp : p.2 = maskedAt g md p.1 := by
        have hpd : p ∈ dsorted := List.mem_of_mem_take hp
        exact (mem_pairs_eq ((sortPairsDesc_perm pairs).mem_iff.mp hpd)).2
      rw [hpp] at hrel
      exact hrel
  · have hke : (coords.length ≤ k →
        keptCoords g md tAbs tRel (some k) = coords) := by
      intro hlen
      simp only [keptCoords]
      rw [if_neg (by rw [← hcoords]; omega)]
    constructor
    · intro hlen i
      rw [bval_peak_out hwf hnf, hke hlen]
    · rcases Nat.lt_or_ge k coords.length with hlt | hge
      · rw [trueCount_peak hwf hnf]
        simp only [keptCoords]
        rw [if_pos hlt, List.length_map, List.length_take]
        omega
      · rw [trueCount_peak hwf hnf, hke (by omega)]
        omega

theorem claim_C7_witness :
    (1 < (peakCoords (⟨[5], [0, 5, 0, 3, 0]⟩ : Grid Int) 1 0 0).length) ∧
    ((1 < (peakCoords (⟨[5], [0, 5, 0, 3, 0]⟩ : Grid Int) 1 0 0).length →
      trueCount (_peak_local_max (⟨[5], [0, 5, 0, 3, 0]⟩ : Grid Int) 1 0 0 (some 1)) = 1 ∧
      (∀ i j, bval (_peak_local_max (⟨[5], [0, 5, 0, 3, 0]⟩ : Grid Int) 1 0 0 (some 1)) i = true →
        j ∈ peakCoords (⟨[5], [0, 5, 0, 3, 0]⟩ : Grid Int) 1 0 0 →
        bval (_peak_local_max (⟨[5], [0, 5, 0, 3, 0]⟩ : Grid Int) 1 0 0 (some 1)) j = false →
        maskedAt (⟨[5], [0, 5, 0, 3, 0]⟩ : Grid Int) 1 j ≤ maskedAt (⟨[5], [0, 5, 0, 3, 0]⟩ : Grid Int) 1 i)) ∧
    ((peakCoords (⟨[5], [0, 5, 0, 3, 0]⟩ : Grid Int) 1 0 0).length ≤ 1 →
      ∀ i, bval (_peak_local_max (⟨[5], [0, 5, 0, 3, 0]⟩ : Grid Int) 1 0 0 (some 1)) i = true ↔
        i ∈ peakCoords (⟨[5], [0, 5, 0, 3, 0]⟩ : Grid Int) 1 0 0) ∧
    trueCount (_peak_local_max (⟨[5], [0, 5, 0, 3, 0]⟩ : Grid Int) 1 0 0 (some 1)) ≤ 1) :=
  ⟨by decide, claim_C7 (⟨[5], [0, 5, 0, 3, 0]⟩ : Grid Int) 1 0 0 1 (by decide) (by decide)⟩

/-! ### Lemmas: a grid that is everywhere its own window maximum is flat -/

theorem zipWith_natDist_self_sum (c : List Nat) :
    (List.zipWith natDist c c).sum = 0 := by
  induction c with
  | nil => rfl
  | cons a c ih =>
      rw [List.zipWith_cons_cons, List.sum_cons, ih]
      unfold natDist
      simp

theorem faceAdj_all_le {s : List Nat} {i j md : Nat} (hmd : 1 ≤ md)
    (h : faceAdjB s i j = true) : (coordDiffs s i j).all (· ≤ md) = true := by
  unfold faceAdjB at h
  simp only [Bool.and_eq_true, decide_eq_true_eq, beq_iff_eq] at h
  rw [List.all_eq_true]
  intro x hx
  have hle : x ≤ (coordDiffs s i j).sum :=
    List.single_le_sum (fun y _ => Nat.zero_le y) x hx
  rw [h.2] at hle
  simp only [decide_eq_true_eq]
  omega

theorem mem_windowIdx_of_faceAdj {s : List Nat} {i j md : Nat} (hmd : 1 ≤ md)
    (h : faceAdjB s i j = true) : j ∈ windowIdx s md i := by
  apply mem_windowIdx_iff.mpr
  unfold chebInWinB
  unfold faceAdjB at h
  simp only [Bool.and_eq_true, decide_eq_true_eq, beq_iff_eq] at h
  rw [Bool.and_eq_true, Bool.and_eq_true]
  refine ⟨⟨by simpa using h.1.1, by simpa using h.1.2⟩, ?_⟩
  apply faceAdj_all_le hmd
  unfold faceAdjB
  simp only [Bool.and_eq_true, decide_eq_true_eq, beq_iff_eq]
  exact h

theorem exists_dec_coord {c s : List Nat} (hf : List.Forall₂ (· < ·) c s)
    (hex : ∃ x ∈ c, 0 < x) :
    ∃ c', List.Forall₂ (· < ·) c' s ∧ (List.zipWith natDist c' c).sum = 1 ∧
      flatten s c' < flatten s c := by
  induction hf with
  | nil =>
      obtain ⟨x, hx, _⟩ := hex
      cases hx
  | @cons a b c' s' hab htail ih =>
      rcases Nat.eq_zero_or_pos a with ha | ha
      · have hex' : ∃ x ∈ c', 0 < x := by
          obtain ⟨x, hx, hxp⟩ := hex
          rcases List.mem_cons.mp hx with rfl | hx
          · omega
          · exact ⟨x, hx, hxp⟩
        obtain ⟨c'', hf'', hsum, hflt⟩ := ih hex'
        refine ⟨a :: c'', List.Forall₂.cons hab hf'', ?_, ?_⟩
        · rw [List.zipWith_cons_cons, List.sum_cons, hsum]
          unfold natDist
          simp
        · simp only [flatten]
          omega
      · refine ⟨(a - 1) :: c', List.Forall₂.cons (by omega) htail, ?_, ?_⟩
        · rw [List.zipWith_cons_cons, List.sum_cons, zipWith_natDist_self_sum]
          unfold natDist
          omega
        · simp only [flatten]
          have hP : 0 < s'.prod := prod_pos_of_forall₂ htail
          have : (a - 1) * s'.prod < a * s'.prod :=
            (Nat.mul_lt_mul_right hP).mpr (by omega)
          omega

theorem grid_pred {s : List Nat} {i : Nat} (hin : i < s.prod) (hpos : 0 < i) :
    ∃ j, j < i ∧ faceAdjB s j i = true := by
  set c := unflatten s i with hc
  have hf : List.Forall₂ (· < ·) c s := unflatten_forall₂ hin
  have hex : ∃ x ∈ c, 0 < x := by
    by_contra hall
    push_neg at hall
    have hrep : c = List.replicate s.length 0 := by
      have hlen : c.length = s.length := by rw [hc]; exact unflatten_length s i
      rw [← hlen]
      apply List.eq_replicate_of_mem
      intro b hb
      have := hall b hb
      omega
    have : i = 0 := by
      have h1 := flatten_unflatten hin
      rw [← hc, hrep] at h1
      rw [← h1, flatten_replicate_zero]
    omega
  obtain ⟨c', hf', hsum, hlt⟩ := exists_dec_coord hf hex
  refine ⟨flatten s c', ?_, ?_⟩
  · have := flatten_unflatten hin
    rw [← hc] at this
    omega
  · unfold faceAdjB
    rw [Bool.and_eq_true, Bool.and_eq_true]
    refine ⟨⟨?_, by simpa using hin⟩, ?_⟩
    · simpa using flatten_lt hf'
    · unfold coordDiffs
      rw [unflatten_flatten hf', ← hc, hsum]
      rfl

theorem const_of_local_max {α : Type} [LinearOrderedCommRing α] {g : Grid α}
    {md : Nat} (hmd : 1 ≤ md)
    (hmax : ∀ i, i < g.shape.prod → qval g i = maximum_filter_at g md i) :
    ∀ i, i < g.shape.prod → qval g i = qval g 0 := by
  have hadj : ∀ i j, i < g.shape.prod → faceAdjB g.shape j i = true →
      qval g i = qval g j := by
    intro i j hin hji
    have hjn : j < g.shape.prod := by
      unfold faceAdjB at hji
      simp only [Bool.and_eq_true, decide_eq_true_eq] at hji
      exact hji.1.1
    apply le_antisymm
    · have hmem : i ∈ windowIdx g.shape md j := mem_windowIdx_of_faceAdj hmd hji
      have := le_maximum_filter_of_mem hmem
      rw [← hmax j hjn] at this
      exact this
    · have hmem : j ∈ windowIdx g.shape md i := by
        apply mem_windowIdx_of_faceAdj hmd
        rw [faceAdjB_symm]
        exact hji
      have := le_maximum_filter_of_mem hmem
      rw [← hmax i hin] at this
      exact this
  intro i
  induction i using Nat.strong_induction_on with
  | _ i ih =>
      intro hin
      rcases Nat.eq_zero_or_pos i with rfl | hpos
      · rfl
      · obtain ⟨j, hji, hadjij⟩ := grid_pred hin hpos
        rw [hadj i j hin hadjij]
        exact ih j hji (by omega)

/-! ### Lemmas: idempotence of the peak detector -/

theorem peak_out_shape {α : Type} [LinearOrderedCommRing α] (g : Grid α)
    (md : Nat) (tAbs tRel : α) (numPeaks : Option Nat) :
    (_peak_local_max g md tAbs tRel numPeaks).shape = g.shape := by
  unfold _peak_local_max
  by_cases h : isFlat g
  · rw [if_pos h]
  · rw [if_neg h]

theorem peak_out_len {α : Type} [LinearOrderedCommRing α] (g : Grid α)
    (md : Nat) (tAbs tRel : α) (numPeaks : Option Nat) :
    (_peak_local_max g md tAbs tRel numPeaks).data.length = g.data.length := by
  unfold _peak_local_max
  by_cases h : isFlat g
  · rw [if_pos h]
    exact List.length_replicate _ _
  · rw [if_neg h]
    show ((List.range g.data.length).map _).length = _
    rw [List.length_map, List.length_range]

theorem qval_castMask {α : Type} [LinearOrderedCommRing α] (m : Grid Bool)
    (i : Nat) : qval (castMask (α := α) m) i = if bval m i then 1 else 0 := by
  unfold qval castMask bval
  rcases Nat.lt_or_ge i m.data.length with h | h
  · rw [List.getD_eq_getElem _ _ (by simpa using h), List.getElem_map,
      List.getD_eq_getElem _ _ h]
  · rw [List.getD_eq_default _ _ (by simpa using h), List.getD_eq_default _ _ h]
    simp

theorem isFlat_of_replicate_zero {α : Type} [LinearOrderedCommRing α]
    (sh : List Nat) (n : Nat) :
    isFlat (⟨sh, List.replicate n (0 : α)⟩ : Grid α) = true := by
  unfold isFlat
  rw [List.all_eq_true]
  intro x hx
  rw [List.mem_replicate] at hx
  apply decide_eq_true
  rw [hx.2]
  show (0 : α) = (List.replicate n (0 : α)).headD 0
  cases n with
  | zero => rfl
  | succ k =>
      rw [List.replicate_succ]
      rfl

theorem isFlat_castMask_false {α : Type} [LinearOrderedCommRing α]
    {m : Grid Bool} {it jf : Nat}
    (hit : it < m.data.length) (hbt : bval m it = true)
    (hjf : jf < m.data.length) (hbf : bval m jf = false) :
    isFlat (castMask (α := α) m) = false := by
  by_contra hne
  rw [Bool.not_eq_false] at hne
  unfold isFlat at hne
  rw [List.all_eq_true] at hne
  have hmem1 : (1 : α) ∈ (castMask (α := α) m).data := by
    show (1 : α) ∈ m.data.map _
    apply List.mem_map.mpr
    refine ⟨m.data[it], List.getElem_mem hit, ?_⟩
    have he : m.data[it] = true := by
      unfold bval at hbt
      rw [List.getD_eq_getElem _ _ hit] at hbt
      exact hbt
    rw [he]
    rfl
  have hmem0 : (0 : α) ∈ (castMask (α := α) m).data := by
    show (0 : α) ∈ m.data.map _
    apply List.mem_map.mpr
    refine ⟨m.data[jf], List.getElem_mem hjf, ?_⟩
    have he : m.data[jf] = false := by
      unfold bval at hbf
      rw [List.getD_eq_getElem _ _ hjf] at hbf
      exact hbf
    rw [he]
    rfl
  have h1 := of_decide_eq_true (hne _ hmem1)
  have h0 := of_decide_eq_true (hne _ hmem0)
  exact one_ne_zero (α := α) (h1.trans h0.symm)

theorem keptCoords_length_le {α : Type} [LinearOrderedCommRing α] (g : Grid α)
    (md : Nat) (tAbs tRel : α) (k : Nat) :
    (keptCoords g md tAbs tRel (some k)).length ≤ k ∨
      keptCoords g md tAbs tRel (some k) = peakCoords g md tAbs tRel ∧
        (peakCoords g md tAbs tRel).length ≤ k := by
  simp only [keptCoords]
  by_cases h : k < (peakCoords g md tAbs tRel).length
  · rw [if_pos h]
    left
    rw [List.length_map, List.length_take]
    omega
  · rw [if_neg h]
    right
    exact ⟨rfl, by omega⟩

theorem keptCoords_len_le {α : Type} [LinearOrderedCommRing α] (g : Grid α)
    (md : Nat) (tAbs tRel : α) (k : Nat) :
    (keptCoords g md tAbs tRel (some k)).length ≤ k := by
  rcases keptCoords_length_le g md tAbs tRel k with h | ⟨he, hl⟩
  · exact h
  · rw [he]
    exact hl

theorem filter_range_mem_perm (L : List Nat) (n : Nat) (hnd : L.Nodup)
    (hsub : ∀ x ∈ L, x < n) :
    List.Perm ((List.range n).filter fun i => L.contains i) L := by
  apply (List.perm_ext_iff_of_nodup ((List.nodup_range n).filter _) hnd).mpr
  intro a
  rw [List.mem_filter, List.mem_range]
  constructor
  · rintro ⟨_, h2⟩
    rw [List.contains_eq_any_beq] at h2
    simpa using h2
  · intro h
    refine ⟨hsub a h, ?_⟩
    rw [List.contains_eq_any_beq]
    simpa using h

theorem peak_idempotent {α : Type} [LinearOrderedCommRing α] (g : Grid α)
    (md : Nat) (tAbs tRel : α) (numPeaks : Option Nat)
    (hwf : g.WF) (hn : 0 < g.shape.prod) (hmd : 1 ≤ md)
    (ha0 : 0 ≤ tAbs) (ha1 : tAbs < 1) (hr0 : 0 ≤ tRel) (hr1 : tRel < 1) :
    _peak_local_max (castMask (_peak_local_max g md tAbs tRel numPeaks))
        md tAbs tRel numPeaks =
      _peak_local_max g md tAbs tRel numPeaks := by
  set m := _peak_local_max g md tAbs tRel numPeaks with hm
  have hmsh : m.shape = g.shape := peak_out_shape g md tAbs tRel numPeaks
  have hmlen : m.data.length = g.data.length := peak_out_len g md tAbs tRel numPeaks
  have hlen_n : m.data.length = g.shape.prod := by rw [hmlen]; exact hwf
  by_cases hAll : ∀ x ∈ m.data, x = false
  · -- all-false output: the recast grid is flat, so the rerun returns the
    -- all-false mask again
    have hmdata : m.data = List.replicate m.data.length false :=
      List.eq_replicate_of_mem hAll
    have hcast : castMask (α := α) m = ⟨m.shape, List.replicate m.data.length 0⟩ := by
      unfold castMask
      rw [Grid.mk.injEq]
      refine ⟨rfl, ?_⟩
      conv =>
        lhs
        rw [hmdata]
      rw [List.map_replicate]
      rfl
    have hflat : isFlat (castMask (α := α) m) = true := by
      rw [hcast]
      exact isFlat_of_replicate_zero m.shape m.data.length
    unfold _peak_local_max
    rw [if_pos hflat]
    have hclen : (castMask (α := α) m).data.length = m.data.length :=
      List.length_map _ _
    have hcsh : (castMask (α := α) m).shape = m.shape := rfl
    rw [Grid.mk.injEq]
    exact ⟨hcsh, by rw [hclen, ← hmdata]⟩
  · -- the output has a true cell
    push_neg at hAll
    obtain ⟨xtrue, hxmem, hxne⟩ := hAll
    have hxval : xtrue = true := by
      cases xtrue
      · exact absurd rfl hxne
      · rfl
    obtain ⟨it, hit, hite⟩ := List.getElem_of_mem hxmem
    have hbit : bval m it = true := by
      unfold bval
      rw [List.getD_eq_getElem _ _ hit, hite, hxval]
    have hgnf : isFlat g = false := by
      by_contra h
      rw [Bool.not_eq_false] at h
      have hrep : m = ⟨g.shape, List.replicate g.data.length false⟩ := by
        rw [hm]
        unfold _peak_local_max
        rw [if_pos h]
      rw [hrep] at hxmem
      have := List.eq_of_mem_replicate hxmem
      rw [hxval] at this
      exact Bool.noConfusion this
    -- an all-true output is impossible: it would force every cell to equal
    -- its window maximum, hence (the grid graph being connected) a flat grid
    have hnotall : ¬ ∀ i, i < g.shape.prod → bval m i = true := by
      intro hall
      have ht0 : 0 ≤ peak_threshold g md tAbs tRel :=
        le_trans ha0 (le_max_right _ _)
      have hmax : ∀ i, i < g.shape.prod → qval g i = maximum_filter_at g md i := by
        intro i hin
        have hk := (bval_peak_out hwf hgnf).mp (hall i hin)
        have hgt := (mem_peakCoords_iff.mp (keptCoords_subset hk)).2
        by_cases hc : candAt g md i = true
        · unfold candAt at hc
          exact of_decide_eq_true hc
        · exfalso
          unfold maskedAt at hgt
          rw [if_neg hc, mul_zero] at hgt
          exact absurd hgt (not_lt.mpr ht0)
      have hconst := const_of_local_max hmd hmax
      have hflatg : isFlat g = true := by
        unfold isFlat
        rw [List.all_eq_true]
        intro x hx
        obtain ⟨i, hi, he⟩ := List.getElem_of_mem hx
        apply decide_eq_true
        have hqi : qval g i = x := by
          unfold qval
          rw [List.getD_eq_getElem _ _ hi, he]
        have h0len : 0 < g.data.length := by
          have : g.data.length = g.shape.prod := hwf
          omega
        have hq0 : qval g 0 = g.data.headD 0 := by
          unfold qval
          cases hgd : g.data with
          | nil =>
              rw [hgd] at h0len
              exact absurd h0len (by simp)
          | cons a t => rfl
        have hin : i < g.shape.prod := by
          have : g.data.length = g.shape.prod := hwf
          omega
        rw [← hqi, hconst i hin, hq0]
      rw [hflatg] at hgnf
      exact Bool.noConfusion hgnf
    obtain ⟨jf, hjfn, hbjf⟩ : ∃ j, j < g.shape.prod ∧ bval m j = false := by
      by_contra h
      push_neg at h
      apply hnotall
      intro i hin
      have hbi := h i hin
      cases hb2 : bval m i
      · exact absurd hb2 hbi
      · rfl
  -- set up the recast grid
    set gc := castMask (α := α) m with hgc
    have hgcsh : gc.shape = g.shape := hmsh
    have hgclen : gc.data.length = g.data.length := by
      rw [hgc]
      unfold castMask
      rw [List.length_map, hmlen]
    have hitn : it < g.shape.prod := by omega
    have hnf2 : isFlat gc = false :=
      isFlat_castMask_false hit hbit (by omega) hbjf
    have hqv : ∀ i, qval gc i = if bval m i then 1 else 0 := fun i => qval_castMask m i
    have hqle : ∀ i, qval gc i ≤ 1 := by
      intro i
      rw [hqv i]
      by_cases hb : bval m i = true
      · rw [if_pos hb]
      · rw [if_neg hb]
        exact zero_le_one
    have hcand : ∀ i, bval m i = true → candAt gc md i = true := by
      intro i hb
      unfold candAt
      apply decide_eq_true
      apply le_antisymm (le_maximum_filter_center gc md i)
      apply maximum_filter_le le_rfl
      · intro j _
        rw [hqv i, if_pos hb]
        exact hqle j
      · intro _
        rw [hqv i, if_pos hb]
        exact zero_le_one
    have hmasked : ∀ i, maskedAt gc md i = qval gc i := by
      intro i
      by_cases hb : bval m i = true
      · unfold maskedAt
        rw [hcand i hb, if_pos rfl, mul_one]
      · have h0 : qval gc i = 0 := by
          rw [hqv i, if_neg hb]
        unfold maskedAt
        rw [h0, zero_mul]
    have hone_mem : (1 : α) ∈ maskedData gc md := by
      unfold maskedData
      apply List.mem_map.mpr
      refine ⟨it, ?_, ?_⟩
      · rw [List.mem_range, hgcsh]
        exact hitn
      · rw [hmasked it, hqv it, if_pos hbit]
    have hqmax : qListMax (maskedData gc md) = 1 := by
      apply le_antisymm
      · unfold qListMax
        rw [foldl_max_le_iff]
        constructor
        · cases hmd2 : maskedData gc md with
          | nil => exact zero_le_one
          | cons a t =>
              show (a :: t).headD 0 ≤ 1
              have ha : a ∈ maskedData gc md := by
                rw [hmd2]
                exact List.mem_cons_self _ _
              unfold maskedData at ha
              rcases List.mem_map.mp ha with ⟨i, _, rfl⟩
              rw [hmasked i]
              exact hqle i
        · intro a ha
          unfold maskedData at ha
          rcases List.mem_map.mp ha with ⟨i, _, rfl⟩
          rw [hmasked i]
          exact hqle i
      · exact le_foldl_max_of_mem _ hone_mem
    have ht' : peak_threshold gc md tAbs tRel = max tRel tAbs := by
      unfold peak_threshold
      rw [hqmax, one_mul]
    have ht'0 : 0 ≤ max tRel tAbs := le_trans ha0 (le_max_right _ _)
    have ht'1 : max tRel tAbs < 1 := max_lt hr1 ha1
    have hcoords2 : peakCoords gc md tAbs tRel =
        (List.range g.shape.prod).filter fun i => bval m i := by
      unfold peakCoords
      rw [hgcsh]
      apply List.filter_congr
      intro x _
      rw [ht', hmasked x, hqv x]
      by_cases hb : bval m x = true
      · rw [if_pos hb, hb]
        exact decide_eq_true ht'1
      · rw [if_neg hb]
        rw [Bool.not_eq_true] at hb
        rw [hb]
        exact decide_eq_false (not_lt.mpr ht'0)
    have hkept_sub_lt : ∀ x ∈ keptCoords g md tAbs tRel numPeaks, x < g.shape.prod :=
      fun x hx => (mem_peakCoords_iff.mp (keptCoords_subset hx)).1
    have hperm2 : List.Perm ((List.range g.shape.prod).filter fun i => bval m i)
        (keptCoords g md tAbs tRel numPeaks) := by
      have hcong : ∀ x ∈ List.range g.shape.prod,
          (bval m x) = ((keptCoords g md tAbs tRel numPeaks).contains x) := by
        intro x _
        by_cases hb : bval m x = true
        · have hxk := (bval_peak_out hwf hgnf).mp hb
          rw [hb]
          symm
          rw [List.contains_eq_any_beq]
          simpa using hxk
        · rw [Bool.not_eq_true] at hb
          rw [hb]
          symm
          rw [List.contains_eq_any_beq]
          rw [Bool.eq_false_iff]
          intro hany
          have hxk : x ∈ keptCoords g md tAbs tRel numPeaks := by simpa using hany
          have hcontra := (bval_peak_out hwf hgnf).mpr hxk
          rw [hb] at hcontra
          exact Bool.noConfusion hcontra
      rw [List.filter_congr hcong]
      exact filter_range_mem_perm _ _ (keptCoords_nodup g md tAbs tRel numPeaks)
        hkept_sub_lt
    have hcnt2 : (peakCoords gc md tAbs tRel).length =
        (keptCoords g md tAbs tRel numPeaks).length := by
      rw [hcoords2]
      exact hperm2.length_eq
    have hkeq : keptCoords gc md tAbs tRel numPeaks = peakCoords gc md tAbs tRel := by
      rcases numPeaks with _ | k
      · simp only [keptCoords]
      · simp only [keptCoords]
        rw [if_neg (by
          rw [hcnt2]
          have := keptCoords_len_le g md tAbs tRel k
          omega)]
    show _peak_local_max gc md tAbs tRel numPeaks = m
    unfold _peak_local_max
    rw [if_neg (by rw [hnf2]; exact Bool.false_ne_true)]
    rw [Grid.mk.injEq]
    constructor
    · rw [hgcsh, hmsh]
    · rw [hkeq, hcoords2]
      apply List.ext_getElem
      · rw [List.length_map, List.length_range, hgclen, ← hmlen]
      · intro i h1 h2
        rw [List.getElem_map, List.getElem_range]
        have hin : i < g.shape.prod := by
          rw [List.length_map, List.length_range, hgclen] at h1
          have hl : g.data.length = g.shape.prod := hwf
          omega
        have hbv : bval m i = m.data[i] := by
          unfold bval
          rw [List.getD_eq_getElem _ _ h2]
        by_cases hb : bval m i = true
        · rw [← hbv, hb]
          rw [List.contains_eq_any_beq]
          have hmem : i ∈ (List.range g.shape.prod).filter fun j => bval m j :=
            List.mem_filter.mpr ⟨List.mem_range.mpr hin, hb⟩
          simpa using hmem
        · rw [Bool.not_eq_true] at hb
          rw [← hbv, hb]
          rw [List.contains_eq_any_beq]
          rw [Bool.eq_false_iff]
          intro hany
          have hmem : i ∈ (List.range g.shape.prod).filter fun j => bval m j := by
            simpa using hany
          have := (List.mem_filter.mp hmem).2
          rw [hb] at this
          exact Bool.noConfusion this

/-- C8 (counterexample): `_peak_local_max` is not idempotent for every
parameter combination.  With `threshold_abs = 2` the grid `[0, 5, 0]`
yields the mask `[F, T, F]`, but re-running on that mask cast back to
numbers (`[0, 1, 0]`) yields the all-false mask, because the recast peak
value 1 no longer exceeds the absolute threshold 2. -/
theorem claim_C8_counterexample : ¬ ClaimC8Statement := by
  intro h
  have h2 := h.2 Int inferInstance ⟨[3], [0, 5, 0]⟩ 1 2 0 none (by decide) (by decide)
  have hL : _peak_local_max
      (castMask (α := Int) (_peak_local_max (⟨[3], [0, 5, 0]⟩ : Grid Int) 1 2 0 none))
      1 2 0 none = ⟨[3], [false, false, false]⟩ := by decide
  have hR : _peak_local_max (⟨[3], [0, 5, 0]⟩ : Grid Int) 1 2 0 none =
      ⟨[3], [false, true, false]⟩ := by decide
  rw [hL, hR] at h2
  have := (Grid.mk.injEq _ _ _ _).mp h2
  simp at this

/-- C8 (amended): both operations are idempotent on their own output, with
the peak-detector half restricted as the counterexample forces:
`largest_connected_component` applied to its own output returns that
output unchanged, and `_peak_local_max` re-applied to its own boolean
output cast back to the element type reproduces the mask whenever
`min_distance ≥ 1` and both thresholds lie in `[0, 1)` (so that the
recast peak value 1 still clears the threshold). -/
theorem claim_C8_amended :
    (∀ (g out : Grid Bool), g.WF → largest_connected_component g = .ok out →
        largest_connected_component out = .ok out) ∧
    ∀ (α : Type) (inst : LinearOrderedCommRing α) (g : Grid α) (md : Nat)
      (tAbs tRel : α) (numPeaks : Option Nat),
      g.WF → 0 < g.shape.prod → 1 ≤ md →
      0 ≤ tAbs → tAbs < 1 → 0 ≤ tRel → tRel < 1 →
      _peak_local_max (castMask (_peak_local_max g md tAbs tRel numPeaks))
          md tAbs tRel numPeaks =
        _peak_local_max g md tAbs tRel numPeaks :=
  ⟨fun g out hwf h => lcc_idempotent g hwf out h,
   fun _ _ g md tAbs tRel np hwf hn hmd ha0 ha1 hr0 hr1 =>
     peak_idempotent g md tAbs tRel np hwf hn hmd ha0 ha1 hr0 hr1⟩

theorem claim_C8_amended_witness :
    largest_connected_component ⟨[2], [true, false]⟩ =
      .ok (⟨[2], [true, false]⟩ : Grid Bool) ∧
    _peak_local_max
        (castMask (α := Int) (_peak_local_max (⟨[3], [0, 5, 0]⟩ : Grid Int) 1 0 0 none))
        1 0 0 none =
      _peak_local_max (⟨[3], [0, 5, 0]⟩ : Grid Int) 1 0 0 none := by
  constructor
  · exact claim_C8_amended.1 ⟨[2], [true, false]⟩ ⟨[2], [true, false]⟩
      (by decide) (by rfl)
  · exact claim_C8_amended.2 Int inferInstance ⟨[3], [0, 5, 0]⟩ 1 0 0 none
      (by decide) (by decide) (by decide) (by decide) (by decide) (by decide) (by decide)

/-- C9 (claim): neither algorithm mutates the caller-owned input buffer.
In the explicit-buffer model the caller's array is buffer 0; after either
function runs — through any branch, including the raising branch — buffer
0 still holds exactly the values it held before the call.  The in-place
updates (`image *= mask` after `image = image.copy()`, and
`label_count[0] = 0` on the freshly allocated count array) only ever write
freshly allocated buffers. -/
theorem claim_C9 :
    (∀ (α : Type) (inst : LinearOrderedCommRing α) (g : Grid α) (md : Nat)
      (tAbs tRel : α) (numPeaks : Option Nat),
      hread (peakRun g md tAbs tRel numPeaks).1 0 = g.data) ∧
    ∀ g : Grid Bool, hread (lccRun g).1 0 = g.data.map boolToInt := by
  constructor
  · intro α inst g md tAbs tRel numPeaks
    unfold peakRun halloc hread hwrite
    dsimp only
    have hdd : ([g.data] ++
        [List.replicate (([g.data] : List (List α)).getD 0 []).length 0]).getD 0
          ([] : List α) = g.data := rfl
    rw [hdd]
    by_cases h : isFlat (⟨g.shape, g.data⟩ : Grid α)
    · rw [if_pos h]
      rfl
    · rw [if_neg h]
      rfl
  · intro g
    unfold lccRun halloc hread hwrite
    by_cases h0 : label_nb g = 0
    · rw [if_pos h0]
      rfl
    · rw [if_neg h0]
      by_cases h1 : label_nb g = 1
      · rw [if_pos h1]
        rfl
      · rw [if_neg h1]
        rfl
